import Mathlib

/-!
Verification development for the BMSSP repository (bounded multi-source
shortest paths).  The C++ sources are shallowly embedded:

* `BMSSP` models `src/bmssp.cpp`: the priority-queue `BlockList` defined
  locally in that file, `find_pivots`, `base_bmssp`, `bmssp_bounded` and
  `solve_sssp`, together with the reference solver of `src/dijkstra.cpp`.
* `BL` models `src/block_list.cpp`: the partitioned `BlockList` with the
  `D0`/`D1` block lists, the `(upper_bound, id)` index and the locator.

Modelling conventions.  The `double` values handled by the program are
modelled by `WithTop α` for a linearly ordered additive commutative
monoid `α` (`⊤` plays the role of `+infinity`); on every decisive
concrete input the values are small integers, on which IEEE double
arithmetic is exact, and witnesses instantiate `α := ℤ`.
`std::priority_queue` is modelled by its extraction-order semantics: a
list kept sorted by `(cost, node)`, the comparison of
`State::operator>`; `push` is ordered insertion and `top`/`pop` act on
the head.  Hash maps (`std::unordered_map`) are modelled as association
lists with unique keys; their iteration order is never observable in the
modelled code paths except for orders that are value-irrelevant (noted
inline).  Unbounded `while` loops are given a fuel parameter together
with an `ok` flag which is `false` iff some loop ran out of fuel, so a
run with `ok = true` reproduces the C++ execution exactly.
-/

namespace BMSSP

variable {α : Type} [LinearOrderedAddCommMonoid α]

/-- An edge of the adjacency list (`struct Edge` in `bmssp.cpp`);
the field `to` is written `«to»` because `to` is reserved. -/
structure Edge (α : Type) where
  «to» : Nat
  weight : α
  deriving DecidableEq

/-- The adjacency list `vector<vector<Edge>>`. -/
abbrev Graph (α : Type) := List (List (Edge α))

/-- Read `min_costs[v]` (in-range in every modelled execution). -/
def mcGet (mc : List (WithTop α)) (v : Nat) : WithTop α := mc.getD v ⊤

/-- Write `min_costs[v] = d`. -/
def mcSet (mc : List (WithTop α)) (v : Nat) (d : WithTop α) : List (WithTop α) :=
  mc.set v d

/-- Association-list write `m[k] = v` of `std::unordered_map`:
replace the binding of `k` if present, otherwise add it. -/
def alSet {β : Type} : List (Nat × β) → Nat → β → List (Nat × β)
  | [], k, v => [(k, v)]
  | (k', v') :: rest, k, v =>
      if k' = k then (k, v) :: rest else (k', v') :: alSet rest k v

/-- Association-list `m.erase(k)`: drop the first binding of `k`. -/
def alErase {β : Type} : List (Nat × β) → Nat → List (Nat × β)
  | [], _ => []
  | (k', v') :: rest, k => if k' = k then rest else (k', v') :: alErase rest k

/-- The strict-weak order of `State::operator>` read as `≤` for the
min-queue: order by cost, ties by node id. -/
def entLe (a b : WithTop α × Nat) : Bool :=
  a.1 < b.1 || (a.1 = b.1 && a.2 ≤ b.2)

/-- `priority_queue::push`, modelled as ordered insertion so that the
head of the list is always the element `top` would return. -/
def pqPush : List (WithTop α × Nat) → WithTop α × Nat → List (WithTop α × Nat)
  | [], e => [e]
  | x :: rest, e => if entLe e x then e :: x :: rest else x :: pqPush rest e

/-- The priority-queue `BlockList` defined locally in `bmssp.cpp`
(fields `M`, `upper_bound`, `pq`, `dists`). -/
structure BlockListPQ (α : Type) where
  M : Nat
  upper_bound : WithTop α
  pq : List (WithTop α × Nat)
  dists : List (Nat × WithTop α)
  deriving DecidableEq

namespace BlockListPQ

/-- `BlockList::insert` of `bmssp.cpp`: store `(u, d)` only when
`d < upper_bound` and `d` improves the stored value (or none is stored). -/
def insert (bl : BlockListPQ α) (u : Nat) (d : WithTop α) : BlockListPQ α :=
  if d < bl.upper_bound
      && (match bl.dists.lookup u with
          | none => true
          | some dd => decide (d < dd)) then
    { bl with dists := alSet bl.dists u d, pq := pqPush bl.pq (d, u) }
  else bl

/-- `BlockList::batch_prepend` of `bmssp.cpp`: literally repeated `insert`. -/
def batch_prepend (bl : BlockListPQ α) (elements : List (Nat × WithTop α)) :
    BlockListPQ α :=
  elements.foldl (fun b p => b.insert p.1 p.2) bl

/-- The loop of `BlockList::pull`.  Popping an entry whose node is absent
from `dists` evaluates `dists[top.node_id]`, whose `operator[]`
default-inserts the value `0` before the comparison — modelled verbatim. -/
def pullLoop (M : Nat) :
    List (WithTop α × Nat) → List (Nat × WithTop α) → List Nat →
    List Nat × List (WithTop α × Nat) × List (Nat × WithTop α)
  | [], dists, acc => (acc.reverse, [], dists)
  | (c, u) :: rest, dists, acc =>
    if M ≤ acc.length then (acc.reverse, (c, u) :: rest, dists)
    else
      match dists.lookup u with
      | none =>
          let dists' := alSet dists u 0
          if 0 < c then pullLoop M rest dists' acc
          else pullLoop M rest (alErase dists' u) (u :: acc)
      | some dd =>
          if dd < c then pullLoop M rest dists acc
          else pullLoop M rest (alErase dists u) (u :: acc)

/-- `BlockList::pull` of `bmssp.cpp`: returns the frontier and the bound
`next_b` (the cost at the head of the remaining queue, else `upper_bound`). -/
def pull (bl : BlockListPQ α) : (List Nat × WithTop α) × BlockListPQ α :=
  match pullLoop bl.M bl.pq bl.dists [] with
  | (f, pq', dists') =>
    ((f, match pq' with
         | [] => bl.upper_bound
         | (c, _) :: _ => c),
      { bl with pq := pq', dists := dists' })

/-- The loop of `BlockList::is_empty`: pop stale entries (here the lookup
uses `find`, which does not default-insert). -/
def isEmptyLoop : List (WithTop α × Nat) → List (Nat × WithTop α) →
    List (WithTop α × Nat)
  | [], _ => []
  | (c, u) :: rest, dists =>
    match dists.lookup u with
    | none => isEmptyLoop rest dists
    | some dd => if dd < c then isEmptyLoop rest dists else (c, u) :: rest

/-- `BlockList::is_empty` of `bmssp.cpp` (mutates the queue). -/
def is_empty (bl : BlockListPQ α) : Bool × BlockListPQ α :=
  match isEmptyLoop bl.pq bl.dists with
  | pq' => (pq'.isEmpty, { bl with pq := pq' })

end BlockListPQ

/-- One edge scan of a `find_pivots` round: relax `u → e.to`; on `d ≤
min_costs[e.to]` write the distance, and when additionally `d < bound`
extend the next layer and set `bp_map[e.to] = u`. -/
def relaxEdge (bound : WithTop α) (u : Nat) (e : Edge α)
    (st : List (WithTop α) × List Nat × List (Nat × Nat)) :
    List (WithTop α) × List Nat × List (Nat × Nat) :=
  match st with
  | (mc, nl, bp) =>
    match mcGet mc u + (e.weight : WithTop α) with
    | d =>
      if d ≤ mcGet mc e.«to» then
        if d < bound then (mcSet mc e.«to» d, nl ++ [e.«to»], alSet bp e.«to» u)
        else (mcSet mc e.«to» d, nl, bp)
      else (mc, nl, bp)

/-- One round of `find_pivots`: scan every node of the previous layer. -/
def relaxLayer (bound : WithTop α) (adj : Graph α) (layer : List Nat)
    (mc : List (WithTop α)) (bp : List (Nat × Nat)) :
    List (WithTop α) × List Nat × List (Nat × Nat) :=
  layer.foldl
    (fun st u => (adj.getD u []).foldl (fun st' e => relaxEdge bound u e st') st)
    (mc, [], bp)

/-- The `k`-round loop of `find_pivots`, with the short-circuit return when
the accumulated set exceeds `k * |frontier|` (final `Bool`: short-circuited). -/
def fpRounds (bound : WithTop α) (adj : Graph α) (k : Nat) (frontier : List Nat) :
    Nat → List Nat → List Nat → List (WithTop α) → List (Nat × Nat) →
    List Nat × List Nat × List (WithTop α) × List (Nat × Nat) × Bool
  | 0, allL, lastL, mc, bp => (allL, lastL, mc, bp, false)
  | r + 1, allL, lastL, mc, bp =>
      match relaxLayer bound adj lastL mc bp with
      | (mc', nl, bp') =>
        match allL ++ nl with
        | allL' =>
          if k * frontier.length < allL'.length then (allL', nl, mc', bp', true)
          else fpRounds bound adj k frontier r allL' nl mc' bp' 

/-- The parent walk of `find_pivots`: follow `bp_map` to a root, counting
steps.  Fuel models the unbounded C++ `while`; `false` means the walk did
not reach a root within the fuel (on a `bp_map` cycle the C++ loop
diverges). -/
def walk (bp : List (Nat × Nat)) : Nat → Nat → Nat → Nat × Nat × Bool
  | 0, cur, count => (cur, count, false)
  | fuel + 1, cur, count =>
    match bp.lookup cur with
    | none => (cur, count, true)
    | some p => walk bp fuel p (count + 1)

/-- The pivot-selection loop of `find_pivots`: accumulate walk lengths per
root in `tree_size` and record a root once its total reaches `k`.
The C++ collects pivots in an `unordered_set`; the model keeps first
insertion order, which no caller observes beyond the set of members. -/
def pivotLoop (bp : List (Nat × Nat)) (k : Nat) :
    List Nat → List (Nat × Nat) → List Nat → Bool → List Nat × Bool
  | [], _, piv, ok => (piv, ok)
  | leaf :: rest, ts, piv, ok =>
    match walk bp (bp.length + 1) leaf 0 with
    | (root, cnt, wok) =>
      match ((ts.lookup root).getD 0) + cnt with
      | total =>
        pivotLoop bp k rest (alSet ts root total)
          (if k ≤ total && !(piv.contains root) then piv ++ [root] else piv)
          (ok && wok)

/-- `find_pivots` of `bmssp.cpp`.  Returns `(pivots, all_layers, min_costs,
ok)`; `ok = false` iff some parent walk failed to terminate. -/
def find_pivots (bound : WithTop α) (frontier : List Nat) (k : Nat)
    (adj : Graph α) (mc : List (WithTop α)) :
    List Nat × List Nat × List (WithTop α) × Bool :=
  match fpRounds bound adj k frontier k frontier frontier mc [] with
  | (allL, lastL, mc', bp, sc) =>
    if sc then (frontier, allL, mc', true)
    else
      match pivotLoop bp k lastL [] [] true with
      | (piv, ok) => (piv, allL, mc', ok)

/-- The Dijkstra loop of `base_bmssp`: settle at most `k + 1` distinct
nodes, relaxing only edges with tentative value `d ≤ min_costs[e.to]` and
`d < B`.  Returns `(settled, max_cost, min_costs, remaining queue, ok)`. -/
def baseLoop (adj : Graph α) (B : WithTop α) (k : Nat) :
    Nat → List (WithTop α × Nat) → List Nat → WithTop α → List (WithTop α) →
    List Nat × WithTop α × List (WithTop α) × List (WithTop α × Nat) × Bool
  | fuel, pq, settled, maxc, mc =>
    match pq with
    | [] => (settled, maxc, mc, [], true)
    | (c, u) :: rest =>
      if k + 1 ≤ settled.length then (settled, maxc, mc, (c, u) :: rest, true)
      else
        match fuel with
        | 0 => (settled, maxc, mc, (c, u) :: rest, false)
        | fuel + 1 =>
          if settled.contains u then baseLoop adj B k fuel rest settled maxc mc
          else
            match (adj.getD u []).foldl
                (fun (acc : List (WithTop α) × List (WithTop α × Nat)) e =>
                  match acc with
                  | (m, q) =>
                    match c + (e.weight : WithTop α) with
                    | d =>
                      if d ≤ mcGet m e.«to» && d < B then
                        (mcSet m e.«to» d, pqPush q (d, e.«to»))
                      else (m, q))
                (mc, rest) with
            | (mc', pq') =>
              baseLoop adj B k fuel pq' (settled ++ [u]) (max maxc c) mc' 

/-- `base_bmssp` of `bmssp.cpp`.  Returns `(bound, U, min_costs, ok)`. -/
def base_bmssp (B : WithTop α) (s : Nat) (k : Nat) (adj : Graph α)
    (mc : List (WithTop α)) (fuel : Nat) :
    WithTop α × List Nat × List (WithTop α) × Bool :=
  match baseLoop adj B k fuel [(mcGet mc s, s)] [] (mcGet mc s) mc with
  | (settled, maxc, mc', _, ok) =>
    if settled.length ≤ k then (B, settled, mc', ok)
    else (maxc, settled.filter (fun v => mcGet mc' v < maxc), mc', ok)

/-- The edge relaxation performed on each `u ∈ U'` inside the
`bmssp_bounded` while loop: update `min_costs`, re-insert values in
`[pb, B)` into the block list and collect values in `[rb, pb)` for the
later `batch_prepend`. -/
def relaxAfterRec (adj : Graph α) (B pb rb : WithTop α) (u : Nat)
    (st : List (WithTop α) × BlockListPQ α × List (Nat × WithTop α)) :
    List (WithTop α) × BlockListPQ α × List (Nat × WithTop α) :=
  (adj.getD u []).foldl
    (fun st' e =>
      match st' with
      | (mc, bl, tp) =>
        match mcGet mc u + (e.weight : WithTop α) with
        | d =>
          if d ≤ mcGet mc e.«to» then
            if pb ≤ d && d < B then (mcSet mc e.«to» d, bl.insert e.«to» d, tp)
            else if rb ≤ d && d < pb then
              (mcSet mc e.«to» d, bl, tp ++ [(e.«to», d)])
            else (mcSet mc e.«to» d, bl, tp)
          else (mc, bl, tp))
    st

/-- The while loop of `bmssp_bounded`, parameterised by the level-below
recursive call.  Returns `(min_ub, U, min_costs, ok)`. -/
def bmsspLoop
    (recurse : WithTop α → List Nat → List (WithTop α) →
      WithTop α × List Nat × List (WithTop α) × Bool)
    (adj : Graph α) (B : WithTop α) (max_u : Nat) :
    Nat → BlockListPQ α → List Nat → WithTop α → List (WithTop α) →
    WithTop α × List Nat × List (WithTop α) × Bool
  | fuel, bl, uset, minub, mc =>
    if max_u ≤ uset.length then (minub, uset, mc, true)
    else
      match bl.is_empty with
      | (em, bl₁) =>
        if em then (minub, uset, mc, true)
        else
          match fuel with
          | 0 => (minub, uset, mc, false)
          | fuel + 1 =>
            match bl₁.pull with
            | ((pf, pb), bl₂) =>
              match recurse pb pf mc with
              | (rb, ru, mc₁, rok) =>
                match ru.foldl
                    (fun (acc : List Nat × List (WithTop α) × BlockListPQ α ×
                        List (Nat × WithTop α)) u =>
                      match acc with
                      | (us, m, b, tp) =>
                        match relaxAfterRec adj B pb rb u (m, b, tp) with
                        | (m', b', tp') => (us ++ [u], m', b', tp'))
                    (uset, mc₁, bl₂, []) with
                | (uset', mc₂, bl₃, tp) =>
                  match bmsspLoop recurse adj B max_u fuel
                      (bl₃.batch_prepend tp) uset' rb mc₂ with
                  | (fb, fu, fm, fok) => (fb, fu, fm, rok && fok)

/-- `bmssp_bounded` of `bmssp.cpp`.  Level `0` calls `base_bmssp` on
`frontier[0]`; level `l + 1` runs `find_pivots`, seeds a fresh
`BlockListPQ` of size `M = 2^(t*l)` with the pivots, and drives the while
loop capped at `max_u = k * 2^(t*(l+1))` nodes. -/
def bmssp_bounded (adj : Graph α) (k t : Nat) :
    Nat → WithTop α → List Nat → List (WithTop α) → Nat →
    WithTop α × List Nat × List (WithTop α) × Bool
  | 0, B, frontier, mc, fuel => base_bmssp B (frontier.headD 0) k adj mc fuel
  | l + 1, B, frontier, mc, fuel =>
    match find_pivots B frontier k adj mc with
    | (piv, vis, mc₀, pok) =>
      match piv.foldl
          (fun (acc : BlockListPQ α × WithTop α) p =>
            match acc with
            | (b, mu) => (b.insert p (mcGet mc₀ p), min mu (mcGet mc₀ p)))
          (⟨2 ^ (t * l), B, [], []⟩, B) with
      | (bl₀, minub) =>
        match bmsspLoop (fun b f m => bmssp_bounded adj k t l b f m fuel)
            adj B (k * 2 ^ (t * (l + 1))) fuel bl₀ [] minub mc₀ with
        | (rb, ru, mc₁, lok) =>
          (rb, ru ++ vis.filter (fun v => mcGet mc₁ v < rb), mc₁, pok && lok)

/-- Integer cube root: the largest `c` with `c^3 ≤ m`. -/
def natCbrt (m : Nat) : Nat :=
  (List.range (m + 1)).foldl (fun acc c => if c * c * c ≤ m then c else acc) 0

/-- The initial `min_costs`: `+∞` everywhere except `0` at the source. -/
def initMC (α : Type) [LinearOrderedAddCommMonoid α] (n src : Nat) :
    List (WithTop α) :=
  (List.replicate n (⊤ : WithTop α)).set src 0

/-- The parameter derivation of `solve_sssp` for `n = 2^j`, where
`log2(n) = j` is exact in `double`.  `k = max(2, (int)pow(j, 1/3))`,
`t = max(1, (int)pow(j, 2/3))`, `l = (int)ceil(j / t)`.  For `0 ≤ j ≤ 7`
the `double` computations produce exactly the integer values used here:
the real powers involved lie at distance at least `0.02` from every
integer except at `j ∈ {0, 1}`, where IEEE `pow` is exact
(`pow(0, y) = 0`, `pow(1, y) = 1`), and small-integer division followed
by `ceil` rounds exactly. -/
def solveParamsPow2 (j : Nat) : Nat × Nat × Nat :=
  let k := max 2 (natCbrt j)
  let t := max 1 (natCbrt (j * j))
  let l := (j + t - 1) / t
  (k, t, l)

/-- `solve_sssp` of `bmssp.cpp` for an input with `n = 2^j` nodes. -/
def solve_sssp_pow2 (j : Nat) (adj : Graph α) (start : Nat) (fuel : Nat) :
    List (WithTop α) × Bool :=
  match solveParamsPow2 j with
  | (k, t, l) =>
    match bmssp_bounded adj k t l ⊤ [start] (initMC α (2 ^ j) start) fuel with
    | (_, _, mc, ok) => (mc, ok)

/-- The reference solver of `src/dijkstra.cpp`: plain binary-heap Dijkstra
with the strict relaxation `new_dist < dist[e.to]`. -/
def dijkLoop (adj : Graph α) :
    Nat → List (WithTop α × Nat) → List (WithTop α) → List (WithTop α) × Bool
  | _, [], dist => (dist, true)
  | 0, _ :: _, dist => (dist, false)
  | fuel + 1, (c, u) :: rest, dist =>
    if mcGet dist u < c then dijkLoop adj fuel rest dist
    else
      match (adj.getD u []).foldl
          (fun (acc : List (WithTop α) × List (WithTop α × Nat)) e =>
            match acc with
            | (m, q) =>
              match c + (e.weight : WithTop α) with
              | nd =>
                if nd < mcGet m e.«to» then
                  (mcSet m e.«to» nd, pqPush q (nd, e.«to»))
                else (m, q))
          (dist, rest) with
      | (dist', pq') => dijkLoop adj fuel pq' dist' 

/-- `main` of `dijkstra.cpp` after input parsing: the distance vector the
reference binary heap Dijkstra computes. -/
def dijkstra (n : Nat) (adj : Graph α) (source : Nat) (fuel : Nat) :
    List (WithTop α) × Bool :=
  dijkLoop adj fuel [((0 : WithTop α), source)]
    ((List.replicate n (⊤ : WithTop α)).set source 0)


/-- A public operation on the priority-queue BlockList of `bmssp.cpp`. -/
inductive PQOp (α : Type) where
  | ins (u : Nat) (d : WithTop α) : PQOp α
  | bp (elements : List (Nat × WithTop α)) : PQOp α
  | pl : PQOp α
  | emp : PQOp α
  deriving DecidableEq

/-- Apply one public operation to a priority-queue BlockList. -/
def pqRunOp (bl : BlockListPQ α) : PQOp α → BlockListPQ α
  | PQOp.ins u d => bl.insert u d
  | PQOp.bp els => bl.batch_prepend els
  | PQOp.pl => (bl.pull).2
  | PQOp.emp => (bl.is_empty).2

/-- A fresh priority-queue BlockList, as constructed by `bmssp_bounded`. -/
def mkPQ (M : Nat) (B : WithTop α) : BlockListPQ α := ⟨M, B, [], []⟩

/-- An operation only feeds non-negative values (all values arising in
`solve_sssp` are sums of non-negative weights). -/
def pqOpNonneg : PQOp α → Prop
  | PQOp.ins _ d => 0 ≤ d
  | PQOp.bp els => ∀ p ∈ els, 0 ≤ p.2
  | PQOp.pl => True
  | PQOp.emp => True

/-- The poisoned-node invariant behind the `dists[u] = 0` quirk: `u` is
recorded with value `0` and every queue entry for `u` has positive cost. -/
def quirkInv (bl : BlockListPQ α) (u : Nat) : Prop :=
  bl.dists.lookup u = some 0 ∧ ∀ e ∈ bl.pq, e.2 = u → 0 < e.1

/-- Every queue entry is non-negative and below the bound. -/
def pqBounded (bl : BlockListPQ α) : Prop :=
  ∀ e ∈ bl.pq, 0 ≤ e.1 ∧ e.1 < bl.upper_bound

/-- Every stored binding is non-negative and below the bound. -/
def distsBounded (bl : BlockListPQ α) : Prop :=
  ∀ p ∈ bl.dists, 0 ≤ p.2 ∧ p.2 < bl.upper_bound

/-- Pointwise comparison of distance vectors. -/
def mcLe (mc' mc : List (WithTop α)) : Prop := ∀ v, mcGet mc' v ≤ mcGet mc v

/-- Every entry of the distance vector is non-negative. -/
def mcNonneg (mc : List (WithTop α)) : Prop := ∀ v, 0 ≤ mcGet mc v

/-- Every edge weight of the graph is non-negative. -/
def adjNonneg (adj : Graph α) : Prop := ∀ l ∈ adj, ∀ e ∈ l, 0 ≤ e.weight

/-- The parent walk run by `find_pivots` for one leaf. -/
def leafWalk (bp : List (Nat × Nat)) (leaf : Nat) : Nat × Nat × Bool :=
  walk bp (bp.length + 1) leaf 0

/-- Declarative total of `find_pivots`: the summed parent-walk lengths of
all last-layer leaf occurrences whose walk ends at root `r`. -/
def totalCount (bp : List (Nat × Nat)) (leaves : List Nat) (r : Nat) : Nat :=
  (leaves.filter (fun lf => (leafWalk bp lf).1 = r)).foldl
    (fun n lf => n + (leafWalk bp lf).2.1) 0

/-- Modelled from the spec (refinement comparison for the solver
parameters): the claim derives the parameters from `logn = log2 n` *with
the value `1` substituted when `n ≤ 2`*; for `n = 2^j` this is
`if j ≤ 1 then 1 else j`.  Floors of real powers of a natural number are
realised by `natCbrt` (see `solveParamsPow2`). -/
def specParamsPow2 (j : Nat) : Nat × Nat × Nat :=
  match (if j ≤ 1 then 1 else j) with
  | logn =>
    match max 1 (natCbrt (logn * logn)) with
    | t => (max 2 (natCbrt logn), t, (logn + t - 1) / t)

/-- The 8-node graph on which `solve_sssp` and the reference Dijkstra
disagree: edges `2 → 0 (w 1)`, `4 → 2 (w 0)`, `0 → 7 (w 0)`,
`3 → 4 (w 0)`, source `3`. -/
def cexAdj : Graph ℕ :=
  [[⟨7, 0⟩], [], [⟨0, 1⟩], [⟨4, 0⟩], [⟨2, 0⟩], [], [], []]


end BMSSP

namespace BL

open BMSSP (alSet alErase)

variable {α : Type} [LinearOrderedAddCommMonoid α]

/-- `BlockList::ListType` of `block_list.h`. -/
inductive ListType where
  | LIST_D0 : ListType
  | LIST_D1 : ListType
  deriving DecidableEq

export ListType (LIST_D0 LIST_D1)

/-- A `Block` of the partitioned BlockList: a list of `(u, d)` elements, an
inclusive `upper_bound` and the id used for index tie-breaking.  `D0`
blocks all carry id `0`, exactly as in the source. -/
structure Block (α : Type) where
  elements : List (Nat × WithTop α)
  upper_bound : WithTop α
  id : ℤ
  deriving DecidableEq

/-- The partitioned `BlockList` of `block_list.cpp`.  `D1_Index` is the
(sorted) key list of the `std::map`; its mapped iterators are realised by
locating the `D1` block with the matching `(upper_bound, id)`.  The
locator stores `(list, dist)` per node; its block and element iterators
are realised by locating the node, which is equivalent under the
one-occurrence invariant I3. -/
structure BlockList (α : Type) where
  M : Nat
  B_global : WithTop α
  D0 : List (Block α)
  D1 : List (Block α)
  D1_Index : List (WithTop α × ℤ)
  next_block_id : ℤ
  locator : List (Nat × (ListType × WithTop α))
  deriving DecidableEq

/-- The `BlockList` constructor: clamp `M` to at least `1` and create the
initial empty `D1` block with `upper_bound = B_global`. -/
def mkBlockList (m : Nat) (B : WithTop α) : BlockList α :=
  { M := if m < 1 then 1 else m
    B_global := B
    D0 := []
    D1 := [⟨[], B, 0⟩]
    D1_Index := [(B, 0)]
    next_block_id := 1
    locator := [] }

/-- Strict lexicographic order on `std::map` keys `(upper_bound, id)`. -/
def keyLt (a b : WithTop α × ℤ) : Bool :=
  a.1 < b.1 || (a.1 = b.1 && a.2 < b.2)

/-- Ordered insertion into the sorted key list of the `D1` index. -/
def idxInsert : List (WithTop α × ℤ) → (WithTop α × ℤ) → List (WithTop α × ℤ)
  | [], k => [k]
  | x :: rest, k => if keyLt k x then k :: x :: rest else x :: idxInsert rest k

/-- `std::map::erase` by key: drop the first matching key. -/
def idxErase : List (WithTop α × ℤ) → (WithTop α × ℤ) → List (WithTop α × ℤ)
  | [], _ => []
  | x :: rest, k => if x = k then rest else x :: idxErase rest k

/-- `D1_Index.lower_bound({d, INT_MIN})`: the first key `≥ (d, INT_MIN)`
in the sorted key list.  Block ids are non-negative, so `-1` plays the
role of `INT_MIN`. -/
def idxLowerBound (idx : List (WithTop α × ℤ)) (d : WithTop α) :
    Option (WithTop α × ℤ) :=
  idx.find? (fun k => !(keyLt k (d, -1)))

/-- Erase the first element with node `u` from a block's element list
(`list::erase` of the locator's element iterator, under invariant I3). -/
def elemErase (u : Nat) : List (Nat × WithTop α) → List (Nat × WithTop α)
  | [] => []
  | (x, dx) :: rest => if x = u then rest else (x, dx) :: elemErase u rest

/-- Remove node `u` from the first block of a block list that holds it:
drop the block if this empties it, reporting the dropped block's
`(upper_bound, id)` key. -/
def removeFromBlocks (u : Nat) :
    List (Block α) → List (Block α) × Option (WithTop α × ℤ)
  | [] => ([], none)
  | b :: rest =>
    if (b.elements.lookup u).isSome then
      match elemErase u b.elements with
      | [] => (rest, some (b.upper_bound, b.id))
      | els => ({ b with elements := els } :: rest, none)
    else
      match removeFromBlocks u rest with
      | (rest', key) => (b :: rest', key)

/-- The removal step shared by `insert`, `batch_prepend` and `pull`:
erase node `u` from its block (named by the locator's list tag), drop the
block and its index entry if it empties, and clear the locator entry. -/
def removeExisting (s : BlockList α) (u : Nat) (tag : ListType) : BlockList α :=
  match tag with
  | LIST_D1 =>
    match removeFromBlocks u s.D1 with
    | (d1', some key) =>
        { s with D1 := d1', D1_Index := idxErase s.D1_Index key,
                 locator := alErase s.locator u }
    | (d1', none) => { s with D1 := d1', locator := alErase s.locator u }
  | LIST_D0 =>
    match removeFromBlocks u s.D0 with
    | (d0', _) => { s with D0 := d0', locator := alErase s.locator u }

/-- Stable insertion into a list sorted by the valuation `key`. -/
def sortedInsertBy {β : Type} (key : β → WithTop α) (x : β) :
    List β → List β
  | [] => [x]
  | y :: rest =>
      if key x < key y then x :: y :: rest else y :: sortedInsertBy key x rest

/-- Stable insertion sort by the valuation `key`: a legal realisation of
the `nth_element` partial sorts of the source (a full stable sort
satisfies every `nth_element` postcondition). -/
def sortBy {β : Type} (key : β → WithTop α) (l : List β) : List β :=
  l.foldr (sortedInsertBy key) []

/-- `BlockList::split_block_d1`: partition the (overfull) block around the
median; the left half keeps the block's id and adopts `upper_bound =
max d` of the left half, the right half keeps the old `upper_bound` and
receives the fresh id `nbid`. -/
def split_block_d1 (nbid : ℤ) (b : Block α) : Block α × Block α :=
  match sortBy Prod.snd b.elements with
  | [] => (b, b)
  | e0 :: etail =>
    match (e0 :: etail).length / 2 with
    | mid =>
      match (e0 :: etail).take mid with
      | left =>
        ( ⟨left, left.foldl (fun m x => max m x.2) e0.2, b.id⟩,
          ⟨(e0 :: etail).drop mid, b.upper_bound, nbid⟩ )

/-- Replace the first block with id `bid` by the given blocks (the
iterator-addressed in-place update of the source). -/
def replaceBlock (bid : ℤ) (new : List (Block α)) :
    List (Block α) → List (Block α)
  | [] => []
  | b :: rest =>
    if b.id = bid then new ++ rest else b :: replaceBlock bid new rest

/-- The tail of `BlockList::insert` after the duplicate handling: lazily
recreate `D1` if empty, route `(u, d)` to the block with the smallest
index key `≥ (d, INT_MIN)` (the last block when there is none), append,
record the locator, and split when the block exceeds `M` elements. -/
def insertFresh (s : BlockList α) (u : Nat) (d : WithTop α) : BlockList α :=
  match
    (if s.D1.isEmpty then
      { s with D1 := [⟨[], s.B_global, s.next_block_id⟩],
               D1_Index := idxInsert s.D1_Index (s.B_global, s.next_block_id),
               next_block_id := s.next_block_id + 1 }
    else s) with
  | s₁ =>
    match
      (match idxLowerBound s₁.D1_Index d with
       | some key =>
           match s₁.D1.find? (fun (b : Block α) => b.upper_bound = key.1 && b.id = key.2) with
           | some b => b
           | none => (s₁.D1.getLastD ⟨[], s₁.B_global, 0⟩)
       | none => s₁.D1.getLastD ⟨[], s₁.B_global, 0⟩) with
    | tb =>
      match { tb with elements := tb.elements ++ [(u, d)] } with
      | grown =>
        match alSet s₁.locator u (LIST_D1, d) with
        | loc₁ =>
          if s₁.M < grown.elements.length then
            match split_block_d1 s₁.next_block_id grown with
            | (bl, br) =>
              { s₁ with
                D1 := replaceBlock tb.id [bl, br] s₁.D1
                D1_Index :=
                  idxInsert
                    (idxInsert (idxErase s₁.D1_Index (tb.upper_bound, tb.id))
                      (bl.upper_bound, bl.id))
                    (br.upper_bound, br.id)
                next_block_id := s₁.next_block_id + 1
                locator :=
                  br.elements.foldl (fun L x => alSet L x.1 (LIST_D1, x.2))
                    (bl.elements.foldl (fun L x => alSet L x.1 (LIST_D1, x.2)) loc₁) }
          else
            { s₁ with D1 := replaceBlock tb.id [grown] s₁.D1, locator := loc₁ }

/-- The lazy `D1` re-creation step at the head of `insertFresh`, split out
for reasoning (`insertFresh` is definitionally `insertCore ∘ lazyD1`). -/
def lazyD1 (s : BlockList α) : BlockList α :=
  if s.D1.isEmpty then
    { s with D1 := [⟨[], s.B_global, s.next_block_id⟩],
             D1_Index := idxInsert s.D1_Index (s.B_global, s.next_block_id),
             next_block_id := s.next_block_id + 1 }
  else s

/-- The block-routing step of `insertFresh`, split out for reasoning. -/
def routeBlock (s₁ : BlockList α) (d : WithTop α) : Block α :=
  match idxLowerBound s₁.D1_Index d with
  | some key =>
      match s₁.D1.find? (fun (b : Block α) => b.upper_bound = key.1 && b.id = key.2) with
      | some b => b
      | none => s₁.D1.getLastD ⟨[], s₁.B_global, 0⟩
  | none => s₁.D1.getLastD ⟨[], s₁.B_global, 0⟩

/-- The tail of `insertFresh` after the lazy `D1` re-creation, phrased via
`routeBlock`; definitionally equal to the match chain of `insertFresh`. -/
def insertCore (s₁ : BlockList α) (u : Nat) (d : WithTop α) : BlockList α :=
  if s₁.M < ((routeBlock s₁ d).elements ++ [(u, d)]).length then
    match split_block_d1 s₁.next_block_id
        { routeBlock s₁ d with elements := (routeBlock s₁ d).elements ++ [(u, d)] } with
    | (bl, br) =>
      { s₁ with
        D1 := replaceBlock (routeBlock s₁ d).id [bl, br] s₁.D1
        D1_Index :=
          idxInsert
            (idxInsert
              (idxErase s₁.D1_Index ((routeBlock s₁ d).upper_bound, (routeBlock s₁ d).id))
              (bl.upper_bound, bl.id))
            (br.upper_bound, br.id)
        next_block_id := s₁.next_block_id + 1
        locator :=
          br.elements.foldl (fun L x => alSet L x.1 (LIST_D1, x.2))
            (bl.elements.foldl (fun L x => alSet L x.1 (LIST_D1, x.2))
              (alSet s₁.locator u (LIST_D1, d))) }
  else
    { s₁ with
      D1 := replaceBlock (routeBlock s₁ d).id
        [{ routeBlock s₁ d with elements := (routeBlock s₁ d).elements ++ [(u, d)] }] s₁.D1
      locator := alSet s₁.locator u (LIST_D1, d) }

/-- `BlockList::insert` of `block_list.cpp`: a no-op when `u` is present
with a value `≤ d`; otherwise remove the stale occurrence and insert
afresh into `D1`. -/
def insert (s : BlockList α) (u : Nat) (d : WithTop α) : BlockList α :=
  match s.locator.lookup u with
  | some (tag, dold) =>
      if dold ≤ d then s else insertFresh (removeExisting s u tag) u d
  | none => insertFresh s u d

/-- First pass of `batch_prepend`: deduplicate the input keeping the
minimum value per node.  The C++ iterates the resulting hash map in
unspecified order; the model keeps first-occurrence order, which is
value-irrelevant downstream. -/
def dedupBest : List (Nat × WithTop α) → List (Nat × WithTop α) →
    List (Nat × WithTop α)
  | [], acc => acc
  | (u, d) :: rest, acc =>
    match acc.lookup u with
    | none => dedupBest rest (acc ++ [(u, d)])
    | some d' => if d < d' then dedupBest rest (alSet acc u d) else dedupBest rest acc

/-- `BlockList::partition_into_blocks_d0` with explicit fuel (the source
recursion is on halves; fuel `= arr.length` suffices).  Blocks of at most
`⌈M/2⌉` elements, in ascending value order; the median partition is
realised by the stable sort. -/
def partition_into_blocks_d0 (M : Nat) :
    Nat → List (Nat × WithTop α) → List (Block α)
  | 0, arr => [⟨arr, 0, 0⟩]
  | fuel + 1, arr =>
    if arr.length ≤ (M + 1) / 2 then [⟨arr, 0, 0⟩]
    else
      match sortBy Prod.snd arr with
      | srt =>
        partition_into_blocks_d0 M fuel (srt.take (srt.length / 2)) ++
          partition_into_blocks_d0 M fuel (srt.drop (srt.length / 2))

/-- `BlockList::batch_prepend` of `block_list.cpp`. -/
def batch_prepend (s : BlockList α) (elements : List (Nat × WithTop α)) :
    BlockList α :=
  match
    (dedupBest elements []).foldl
      (fun (acc : BlockList α × List (Nat × WithTop α)) p =>
        match acc with
        | (st, toAdd) =>
          match st.locator.lookup p.1 with
          | some (tag, dold) =>
              if dold ≤ p.2 then (st, toAdd)
              else (removeExisting st p.1 tag, toAdd ++ [p])
          | none => (st, toAdd ++ [p]))
      (s, []) with
  | (s₁, toAdd) =>
    if toAdd.isEmpty then s₁
    else if toAdd.length ≤ s₁.M then
      { s₁ with
        D0 := ⟨toAdd, 0, 0⟩ :: s₁.D0
        locator := toAdd.foldl (fun L x => alSet L x.1 (LIST_D0, x.2)) s₁.locator }
    else
      match partition_into_blocks_d0 s₁.M toAdd.length toAdd with
      | blocks =>
        { s₁ with
          D0 := blocks ++ s₁.D0
          locator := toAdd.foldl (fun L x => alSet L x.1 (LIST_D0, x.2)) s₁.locator }

/-- The candidate scan of `pull`: walk the blocks from the front, taking
every element of each block, and stop once at least `M` elements have
been collected after finishing a block. -/
def collectCands (M : Nat) : List (Block α) → Nat → List (WithTop α × Nat)
  | [], _ => []
  | b :: rest, cnt =>
    match b.elements.map (fun x => (x.2, x.1)) with
    | these =>
      these ++
        (if M ≤ cnt + these.length then [] else collectCands M rest (cnt + these.length))

/-- The first block of a block list that still holds elements. -/
def firstNonempty (blocks : List (Block α)) : Option (Block α) :=
  blocks.find? (fun b => !b.elements.isEmpty)

/-- The frontier-selection step of `pull`: everything when at most `M`
candidates were collected; otherwise the candidates below the `M`-th
order statistic `dM`, or the first `M` candidates when all of them tie at
`dM` (the progress fallback of the source). -/
def selectFrontier (M : Nat) (candidates : List (WithTop α × Nat)) : List Nat :=
  if candidates.length ≤ M then candidates.map Prod.snd
  else
    match sortBy Prod.fst candidates with
    | srt =>
      match (srt.getD M (0, 0)).1 with
      | dM =>
        match ((srt.take M).filter (fun c => c.1 < dM)).map Prod.snd with
        | [] => (srt.take M).map Prod.snd
        | picked => picked

/-- `BlockList::pull` of `block_list.cpp`: collect candidates from the
fronts of `D0` and `D1`, select at most `M` smallest, erase them, and
return the bound `next_bound` = the minimum value over the first
non-empty block of `D0` and of `D1` (or `B_global` when nothing
remains). -/
def pull (s : BlockList α) : (List Nat × WithTop α) × BlockList α :=
  match collectCands s.M s.D0 0 ++ collectCands s.M s.D1 0 with
  | [] => (([], s.B_global), s)
  | c :: cs =>
    match selectFrontier s.M (c :: cs) with
    | frontier =>
      match
        frontier.foldl
          (fun st u =>
            match st.locator.lookup u with
            | some (tag, _) => removeExisting st u tag
            | none => st)
          s with
      | s₁ =>
        match
          (if s₁.locator.isEmpty then s₁.B_global
           else
             match ((firstNonempty s₁.D0).map Block.elements).getD [] with
             | els0 =>
               match ((firstNonempty s₁.D1).map Block.elements).getD [] with
               | els1 =>
                 els1.foldl (fun m x => min m x.2)
                   (els0.foldl (fun m x => min m x.2) s₁.B_global)) with
        | nb => ((frontier, nb), s₁)

/-- `BlockList::is_empty` of `block_list.cpp`. -/
def is_empty (s : BlockList α) : Bool := s.locator.isEmpty

/-- A public operation on the partitioned BlockList (for reachability
statements; `is_empty` does not change the state). -/
inductive BLOp (α : Type) where
  | ins (u : Nat) (d : WithTop α) : BLOp α
  | bp (elements : List (Nat × WithTop α)) : BLOp α
  | pl : BLOp α
  deriving DecidableEq

/-- Apply one public operation to the state. -/
def runOp (s : BlockList α) : BLOp α → BlockList α
  | BLOp.ins u d => insert s u d
  | BLOp.bp els => batch_prepend s els
  | BLOp.pl => (pull s).2

/-- Run a sequence of public operations from a state. -/
def run (s : BlockList α) (ops : List (BLOp α)) : BlockList α :=
  ops.foldl runOp s


/-- How many occurrences of node `u` a block list holds. -/
def countIn (blocks : List (Block α)) (u : Nat) : Nat :=
  blocks.foldl (fun n b => n + b.elements.countP (fun x => x.1 = u)) 0

/-- The stored value of node `u` in a block list, if present. -/
def valIn (blocks : List (Block α)) (u : Nat) : Option (WithTop α) :=
  blocks.findSome? (fun b => b.elements.lookup u)

/-- Well-formedness of a partitioned BlockList state (invariants I2/I3 of
the specification): locator keys are unique, every locator entry matches
exactly one physical occurrence in the named list and none in the other,
and every physical element has a matching locator entry. -/
def wfB (s : BlockList α) : Bool :=
  (s.locator.map Prod.fst).Nodup &&
  s.locator.all (fun p =>
    match p.2.1 with
    | LIST_D0 =>
        countIn s.D0 p.1 = 1 && valIn s.D0 p.1 = some p.2.2 && countIn s.D1 p.1 = 0
    | LIST_D1 =>
        countIn s.D1 p.1 = 1 && valIn s.D1 p.1 = some p.2.2 && countIn s.D0 p.1 = 0) &&
  s.D0.all (fun b => b.elements.all (fun x => s.locator.lookup x.1 = some (LIST_D0, x.2))) &&
  s.D1.all (fun b => b.elements.all (fun x => s.locator.lookup x.1 = some (LIST_D1, x.2)))

/-- The index-consistency part of invariant I2: the `D1` index holds
exactly one entry per `D1` block, keyed by that block's
`(upper_bound, id)`. -/
def indexConsistent (s : BlockList α) : Prop :=
  s.D1_Index.Perm (s.D1.map (fun b => (b.upper_bound, b.id)))

/-- The amended empty-block condition: an empty `D1` block can only be
the single lazily created block with `upper_bound = B_global`. -/
def emptyOK (s : BlockList α) : Prop :=
  ∀ b ∈ s.D1, b.elements = [] → s.D1 = [b] ∧ b.upper_bound = s.B_global

/-- Uniqueness and freshness of `D1` block ids (split/lazy creation always
draw `next_block_id`); an auxiliary invariant carried alongside I2. -/
def idsOK (s : BlockList α) : Prop :=
  (s.D1.map Block.id).Nodup ∧ ∀ b ∈ s.D1, b.id < s.next_block_id

/-- The reachable-state invariant behind the amended I2: index consistency,
the amended empty-block condition, id uniqueness/freshness, and the
constructor's `M ≥ 1` clamp. -/
def invC8 (s : BlockList α) : Prop :=
  indexConsistent s ∧ emptyOK s ∧ idsOK s ∧ 1 ≤ s.M

/-- The operation sequence of the pull-bound violation (M = 1,
B_global = 100). -/
def c2ops : List (BLOp ℕ) :=
  [BLOp.ins 1 59, BLOp.ins 5 97, BLOp.ins 5 92, BLOp.ins 11 51, BLOp.pl,
   BLOp.ins 10 23]

/-- The state reached by `c2ops` from `BlockList(1, 100)`. -/
def c2state : BlockList ℕ := run (mkBlockList 1 ((100 : ℕ) : WithTop ℕ)) c2ops


end BL

/-! ## Theorems -/

set_option maxRecDepth 200000

/-- C1: the claim states that `solve_sssp` always returns the reference
binary-heap Dijkstra distances.  On the 8-node graph `cexAdj` with
source `3` (parameters `k = 2, t = 2, l = 2`, derived exactly), the
completed run of `solve_sssp` leaves node `7` at `+∞` while the reference
Dijkstra computes distance `1`, so the two distance vectors differ: the
code does not satisfy the claim. -/
theorem c1_solve_sssp_ne_dijkstra :
    (BMSSP.solve_sssp_pow2 3 BMSSP.cexAdj 3 64).2 = true ∧
    (BMSSP.dijkstra 8 BMSSP.cexAdj 3 100).2 = true ∧
    (BMSSP.solve_sssp_pow2 3 BMSSP.cexAdj 3 64).1.getD 7 ⊤ = ⊤ ∧
    (BMSSP.dijkstra 8 BMSSP.cexAdj 3 100).1.getD 7 ⊤ = ((1 : ℕ) : WithTop ℕ) ∧
    (BMSSP.solve_sssp_pow2 3 BMSSP.cexAdj 3 64).1 ≠
      (BMSSP.dijkstra 8 BMSSP.cexAdj 3 100).1 := by
  decide

/-- C2: on `BlockList(1, 100)` after
`insert(1,59); insert(5,97); insert(5,92); insert(11,51); pull;
insert(10,23)`, the next `pull` returns the frontier `[1]` — whose stored
value was `59` — with bound `x = 23`, while the element `(10, 23)`
remains stored; `59 ≤ 23` is false, refuting the claimed guarantee that
every returned node's stored value is at most the returned bound. -/
theorem c2_pull_bound_violated :
    BL.c2state.locator.lookup 1 = some (BL.LIST_D1, ((59 : ℕ) : WithTop ℕ)) ∧
    (BL.pull BL.c2state).1 = ([1], ((23 : ℕ) : WithTop ℕ)) ∧
    (BL.pull BL.c2state).2.locator.lookup 10 =
      some (BL.LIST_D1, ((23 : ℕ) : WithTop ℕ)) ∧
    ¬ ((59 : ℕ) : WithTop ℕ) ≤ ((23 : ℕ) : WithTop ℕ) := by
  decide

/-- C6 (counterexample): the claim derives `logn` as `log2 n` "with the
value 1 used when n ≤ 2".  At `n = 1` (`j = 0`) the code computes
`logn = 0` and recursion depth `l = 0`, whereas the claimed derivation
gives `l = ⌈1 / 1⌉ = 1`: the parameter triples differ. -/
theorem c6_clamp_counterexample :
    BMSSP.solveParamsPow2 0 ≠ BMSSP.specParamsPow2 0 ∧
    (BMSSP.solveParamsPow2 0).2.2 = 0 ∧ (BMSSP.specParamsPow2 0).2.2 = 1 := by
  decide

/-- C8 (counterexample): after the public operation
`batch_prepend([(1, 5)])` on a fresh `BlockList(1, 100)`, the `D1` list
still contains the (empty) initial block, refuting the claim that after
every public operation the `D1` list contains no empty block. -/
theorem c8_empty_block_counterexample :
    ∃ b ∈ (BL.batch_prepend (BL.mkBlockList 1 ((100 : ℕ) : WithTop ℕ))
      [(1, ((5 : ℕ) : WithTop ℕ))]).D1, b.elements = [] := by
  decide

namespace BMSSP

variable {α : Type} [LinearOrderedAddCommMonoid α]

theorem lookup_cons_self {β : Type} (k : Nat) (v : β) (l : List (Nat × β)) :
    List.lookup k ((k, v) :: l) = some v := by
  simp [List.lookup_cons]

theorem lookup_cons_ne {β : Type} {k k' : Nat} (h : k' ≠ k) (v : β)
    (l : List (Nat × β)) : List.lookup k' ((k, v) :: l) = List.lookup k' l := by
  simp [List.lookup_cons, beq_false_of_ne h]

theorem alSet_lookup_self {β : Type} (l : List (Nat × β)) (k : Nat) (v : β) :
    (alSet l k v).lookup k = some v := by
  induction l with
  | nil => simpa [alSet] using lookup_cons_self k v []
  | cons p rest ih =>
    obtain ⟨k', v'⟩ := p
    by_cases h : k' = k
    · subst h
      simpa [alSet] using lookup_cons_self k' v rest
    · simp only [alSet, if_neg h]
      rw [lookup_cons_ne (fun hh => h hh.symm)]
      exact ih

theorem alSet_lookup_ne {β : Type} (l : List (Nat × β)) (k k' : Nat) (v : β)
    (h : k' ≠ k) : (alSet l k v).lookup k' = l.lookup k' := by
  induction l with
  | nil => simpa [alSet] using lookup_cons_ne h v []
  | cons p rest ih =>
    obtain ⟨k₀, v₀⟩ := p
    by_cases h0 : k₀ = k
    · subst h0
      simp only [alSet, eq_self_iff_true, ite_true]
      rw [lookup_cons_ne h, lookup_cons_ne h]
    · simp only [alSet, if_neg h0]
      by_cases h1 : k' = k₀
      · subst h1
        rw [lookup_cons_self, lookup_cons_self]
      · rw [lookup_cons_ne h1, lookup_cons_ne h1]
        exact ih

theorem alErase_lookup_ne {β : Type} (l : List (Nat × β)) (k k' : Nat)
    (h : k' ≠ k) : (alErase l k).lookup k' = l.lookup k' := by
  induction l with
  | nil => simp [alErase]
  | cons p rest ih =>
    obtain ⟨k₀, v₀⟩ := p
    by_cases h0 : k₀ = k
    · subst h0
      simp only [alErase, eq_self_iff_true, ite_true]
      rw [lookup_cons_ne h]
    · simp only [alErase, if_neg h0]
      by_cases h1 : k' = k₀
      · subst h1
        rw [lookup_cons_self, lookup_cons_self]
      · rw [lookup_cons_ne h1, lookup_cons_ne h1]
        exact ih

theorem mem_pqPush {e x : WithTop α × Nat} {pq : List (WithTop α × Nat)}
    (h : e ∈ pqPush pq x) : e = x ∨ e ∈ pq := by
  induction pq with
  | nil => simpa [pqPush] using h
  | cons y rest ih =>
    by_cases hle : entLe x y
    · simp only [pqPush, if_pos hle] at h
      rw [List.mem_cons, List.mem_cons] at h
      rcases h with h | h | h
      · exact Or.inl h
      · exact Or.inr (h ▸ List.mem_cons_self y rest)
      · exact Or.inr (List.mem_cons_of_mem _ h)
    · simp only [pqPush, if_neg hle] at h
      rw [List.mem_cons] at h
      rcases h with h | h
      · exact Or.inr (h ▸ List.mem_cons_self y rest)
      · rcases ih h with h | h
        · exact Or.inl h
        · exact Or.inr (List.mem_cons_of_mem _ h)

theorem mem_isEmptyLoop {e : WithTop α × Nat} {pq : List (WithTop α × Nat)}
    {dists : List (Nat × WithTop α)}
    (h : e ∈ BlockListPQ.isEmptyLoop pq dists) : e ∈ pq := by
  induction pq with
  | nil => simpa [BlockListPQ.isEmptyLoop] using h
  | cons y rest ih =>
    obtain ⟨c, u⟩ := y
    cases hl : List.lookup u dists with
    | none =>
      simp only [BlockListPQ.isEmptyLoop, hl] at h
      exact List.mem_cons_of_mem _ (ih h)
    | some dd =>
      simp only [BlockListPQ.isEmptyLoop, hl] at h
      by_cases hc : dd < c
      · rw [if_pos hc] at h
        exact List.mem_cons_of_mem _ (ih h)
      · rw [if_neg hc] at h
        exact h

end BMSSP

namespace BMSSP

variable {α : Type} [LinearOrderedAddCommMonoid α]

theorem mem_alSet {β : Type} {p : Nat × β} {l : List (Nat × β)} {k : Nat} {v : β}
    (h : p ∈ alSet l k v) : p = (k, v) ∨ p ∈ l := by
  induction l with
  | nil => simpa [alSet] using h
  | cons q rest ih =>
    obtain ⟨k₀, v₀⟩ := q
    by_cases h0 : k₀ = k
    · simp only [alSet, if_pos h0] at h
      rw [List.mem_cons] at h
      rcases h with h | h
      · exact Or.inl h
      · exact Or.inr (List.mem_cons_of_mem _ h)
    · simp only [alSet, if_neg h0] at h
      rw [List.mem_cons] at h
      rcases h with h | h
      · exact Or.inr (h ▸ List.mem_cons_self _ rest)
      · rcases ih h with h | h
        · exact Or.inl h
        · exact Or.inr (List.mem_cons_of_mem _ h)

theorem mem_alErase {β : Type} {p : Nat × β} {l : List (Nat × β)} {k : Nat}
    (h : p ∈ alErase l k) : p ∈ l := by
  induction l with
  | nil => simpa [alErase] using h
  | cons q rest ih =>
    obtain ⟨k₀, v₀⟩ := q
    by_cases h0 : k₀ = k
    · simp only [alErase, if_pos h0] at h
      exact List.mem_cons_of_mem _ h
    · simp only [alErase, if_neg h0] at h
      rw [List.mem_cons] at h
      rcases h with h | h
      · exact h ▸ List.mem_cons_self _ rest
      · exact List.mem_cons_of_mem _ (ih h)

theorem pullLoop_bounded (M : Nat) (UB : WithTop α) :
    ∀ (pq : List (WithTop α × Nat)) (dists : List (Nat × WithTop α))
      (acc : List Nat),
      (∀ e ∈ pq, 0 ≤ e.1 ∧ e.1 < UB) →
      (∀ p ∈ dists, 0 ≤ p.2 ∧ p.2 < UB) →
      (∀ e ∈ (BlockListPQ.pullLoop M pq dists acc).2.1, 0 ≤ e.1 ∧ e.1 < UB) ∧
      (∀ p ∈ (BlockListPQ.pullLoop M pq dists acc).2.2, 0 ≤ p.2 ∧ p.2 < UB)
  | [], dists, acc, _, hd => by
      simpa [BlockListPQ.pullLoop] using hd
  | (c, u) :: rest, dists, acc, hq, hd => by
      by_cases hm : M ≤ acc.length
      · simp only [BlockListPQ.pullLoop, if_pos hm]
        exact ⟨hq, hd⟩
      · have hrest : ∀ e ∈ rest, 0 ≤ e.1 ∧ e.1 < UB :=
          fun e he => hq e (List.mem_cons_of_mem _ he)
        have hcu := hq (c, u) (List.mem_cons_self _ _)
        have hub : (0 : WithTop α) < UB := lt_of_le_of_lt hcu.1 hcu.2
        have hset : ∀ p ∈ alSet dists u 0, 0 ≤ p.2 ∧ p.2 < UB := by
          intro p hp
          rcases mem_alSet hp with h | h
          · rw [h]; exact ⟨le_refl 0, hub⟩
          · exact hd p h
        have hsetE : ∀ p ∈ alErase (alSet dists u 0) u, 0 ≤ p.2 ∧ p.2 < UB :=
          fun p hp => hset p (mem_alErase hp)
        have hdE : ∀ p ∈ alErase dists u, 0 ≤ p.2 ∧ p.2 < UB :=
          fun p hp => hd p (mem_alErase hp)
        simp only [BlockListPQ.pullLoop, if_neg hm]
        cases hl : List.lookup u dists with
        | none =>
          by_cases hc : (0 : WithTop α) < c
          · simpa [hc] using pullLoop_bounded M UB rest _ acc hrest hset
          · simpa [hc] using pullLoop_bounded M UB rest _ (u :: acc) hrest hsetE
        | some dd =>
          by_cases hc : dd < c
          · simpa [hc] using pullLoop_bounded M UB rest dists acc hrest hd
          · simpa [hc] using pullLoop_bounded M UB rest _ (u :: acc) hrest hdE

theorem pullLoop_quirk (M : Nat) :
    ∀ (pq : List (WithTop α × Nat)) (dists : List (Nat × WithTop α))
      (acc : List Nat) (u : Nat),
      dists.lookup u = some 0 →
      (∀ e ∈ pq, e.2 = u → 0 < e.1) →
      u ∉ acc →
      (BlockListPQ.pullLoop M pq dists acc).2.2.lookup u = some 0 ∧
      u ∉ (BlockListPQ.pullLoop M pq dists acc).1 ∧
      ∀ e ∈ (BlockListPQ.pullLoop M pq dists acc).2.1, e ∈ pq
  | [], dists, acc, u, hl, _, hacc => by
      refine ⟨by simpa [BlockListPQ.pullLoop] using hl, ?_, by simp [BlockListPQ.pullLoop]⟩
      simpa [BlockListPQ.pullLoop, List.mem_reverse] using hacc
  | (c, u') :: rest, dists, acc, u, hl, hpos, hacc => by
      by_cases hm : M ≤ acc.length
      · simp only [BlockListPQ.pullLoop, if_pos hm]
        refine ⟨hl, by simpa [List.mem_reverse] using hacc, fun e he => he⟩
      · have hrest : ∀ e ∈ rest, e.2 = u → 0 < e.1 :=
          fun e he => hpos e (List.mem_cons_of_mem _ he)
        simp only [BlockListPQ.pullLoop, if_neg hm]
        cases hl' : List.lookup u' dists with
        | none =>
          have hne : u ≠ u' := by
            intro h
            rw [h] at hl
            rw [hl] at hl'
            exact Option.noConfusion hl'
          have hset : (alSet dists u' 0).lookup u = some 0 := by
            rw [alSet_lookup_ne _ _ _ _ hne]; exact hl
          have hsetE : (alErase (alSet dists u' 0) u').lookup u = some 0 := by
            rw [alErase_lookup_ne _ _ _ hne]; exact hset
          by_cases hc : (0 : WithTop α) < c
          · have r := pullLoop_quirk M rest (alSet dists u' 0) acc u hset hrest hacc
            simp only [hc, if_pos] at *
            refine ⟨r.1, r.2.1, fun e he => List.mem_cons_of_mem _ (r.2.2 e he)⟩
          · have hacc' : u ∉ u' :: acc := by
              intro h
              rw [List.mem_cons] at h
              rcases h with h | h
              · exact hne h
              · exact hacc h
            have r := pullLoop_quirk M rest (alErase (alSet dists u' 0) u')
              (u' :: acc) u hsetE hrest hacc'
            simp only [hc, if_neg, not_false_iff] at *
            refine ⟨r.1, r.2.1, fun e he => List.mem_cons_of_mem _ (r.2.2 e he)⟩
        | some dd =>
          by_cases heq : u' = u
          · subst heq
            rw [hl] at hl'
            have hdd : dd = 0 := by
              have := Option.some.inj hl'
              exact this.symm
            subst hdd
            have hc : (0 : WithTop α) < c := hpos (c, u') (List.mem_cons_self _ _) rfl
            have r := pullLoop_quirk M rest dists acc u' hl hrest hacc
            simp only [hc, if_pos] at *
            refine ⟨r.1, r.2.1, fun e he => List.mem_cons_of_mem _ (r.2.2 e he)⟩
          · have hne : u ≠ u' := fun h => heq h.symm
            have hE : (alErase dists u').lookup u = some 0 := by
              rw [alErase_lookup_ne _ _ _ hne]; exact hl
            by_cases hc : dd < c
            · have r := pullLoop_quirk M rest dists acc u hl hrest hacc
              simp only [hc, if_pos] at *
              refine ⟨r.1, r.2.1, fun e he => List.mem_cons_of_mem _ (r.2.2 e he)⟩
            · have hacc' : u ∉ u' :: acc := by
                intro h
                rw [List.mem_cons] at h
                rcases h with h | h
                · exact hne h
                · exact hacc h
              have r := pullLoop_quirk M rest (alErase dists u') (u' :: acc) u
                hE hrest hacc'
              simp only [hc, if_neg, not_false_iff] at *
              refine ⟨r.1, r.2.1, fun e he => List.mem_cons_of_mem _ (r.2.2 e he)⟩

end BMSSP

namespace BMSSP

variable {α : Type} [LinearOrderedAddCommMonoid α]

theorem insert_preserves_bounds (bl : BlockListPQ α) (u : Nat) (d : WithTop α)
    (hd : 0 ≤ d) (hq : pqBounded bl) (hdi : distsBounded bl) :
    pqBounded (bl.insert u d) ∧ distsBounded (bl.insert u d) := by
  rw [BlockListPQ.insert]
  split
  · rename_i hcond
    rw [Bool.and_eq_true, decide_eq_true_eq] at hcond
    constructor
    · intro e he
      rcases mem_pqPush he with h | h
      · rw [h]; exact ⟨hd, hcond.1⟩
      · exact hq e h
    · intro p hp
      rcases mem_alSet hp with h | h
      · rw [h]; exact ⟨hd, hcond.1⟩
      · exact hdi p h
  · exact ⟨hq, hdi⟩

theorem runOp_preserves_bounds (bl : BlockListPQ α) (op : PQOp α)
    (hop : pqOpNonneg op) (hq : pqBounded bl) (hdi : distsBounded bl) :
    pqBounded (pqRunOp bl op) ∧ distsBounded (pqRunOp bl op) := by
  cases op with
  | ins u d => exact insert_preserves_bounds bl u d hop hq hdi
  | bp els =>
    rw [pqRunOp, BlockListPQ.batch_prepend]
    revert bl
    induction els with
    | nil => intro bl hq hdi; exact ⟨hq, hdi⟩
    | cons p rest ih =>
      intro bl hq hdi
      have hp : (0 : WithTop α) ≤ p.2 := hop p (List.mem_cons_self _ _)
      have hrest : ∀ q ∈ rest, (0 : WithTop α) ≤ q.2 :=
        fun q hqq => hop q (List.mem_cons_of_mem _ hqq)
      have step := insert_preserves_bounds bl p.1 p.2 hp hq hdi
      rw [List.foldl_cons]
      exact ih hrest _ step.1 step.2
  | pl =>
    rw [pqRunOp, BlockListPQ.pull]
    have r := pullLoop_bounded bl.M bl.upper_bound bl.pq bl.dists [] hq hdi
    cases hres : BlockListPQ.pullLoop bl.M bl.pq bl.dists [] with
    | mk f rest =>
      obtain ⟨pq', dists'⟩ := rest
      rw [hres] at r
      exact ⟨r.1, r.2⟩
  | emp =>
    rw [pqRunOp, BlockListPQ.is_empty]
    exact ⟨fun e he => hq e (mem_isEmptyLoop he), hdi⟩

end BMSSP

/-- C10: on the priority-queue BlockList of `bmssp.cpp`:
`insert(u, d)` is a no-op when `d` is at or above the creation bound
(silent drop — there is no last block to route to) and when a value
`≤ d` is stored; it stores `(u, d)` exactly when `d < upper_bound` and
`d` improves on the stored value; `batch_prepend` is literally repeated
`insert`; and along any operation sequence feeding non-negative values,
every queue entry and every stored value stays `< upper_bound` (and
non-negative). -/
theorem c10_pq_insert_bound_invariant {α : Type} [LinearOrderedAddCommMonoid α] :
    (∀ (bl : BMSSP.BlockListPQ α) (u : Nat) (d : WithTop α),
        bl.upper_bound ≤ d → bl.insert u d = bl) ∧
    (∀ (bl : BMSSP.BlockListPQ α) (u : Nat) (d dd : WithTop α),
        bl.dists.lookup u = some dd → dd ≤ d → bl.insert u d = bl) ∧
    (∀ (bl : BMSSP.BlockListPQ α) (u : Nat) (d : WithTop α),
        d < bl.upper_bound →
        (bl.dists.lookup u = none ∨ ∃ dd, bl.dists.lookup u = some dd ∧ d < dd) →
        (bl.insert u d).dists.lookup u = some d ∧
        (bl.insert u d).pq = BMSSP.pqPush bl.pq (d, u) ∧
        (bl.insert u d).upper_bound = bl.upper_bound) ∧
    (∀ (bl : BMSSP.BlockListPQ α) (els : List (Nat × WithTop α)),
        bl.batch_prepend els = els.foldl (fun b p => b.insert p.1 p.2) bl) ∧
    (∀ (M : Nat) (B : WithTop α) (ops : List (BMSSP.PQOp α)),
        (∀ op ∈ ops, BMSSP.pqOpNonneg op) →
        BMSSP.pqBounded (ops.foldl BMSSP.pqRunOp (BMSSP.mkPQ M B)) ∧
        BMSSP.distsBounded (ops.foldl BMSSP.pqRunOp (BMSSP.mkPQ M B))) := by
  refine ⟨?_, ?_, ?_, ?_, ?_⟩
  · intro bl u d h
    rw [BMSSP.BlockListPQ.insert]
    have : ¬ d < bl.upper_bound := not_lt.mpr h
    simp [this]
  · intro bl u d dd hl hle
    rw [BMSSP.BlockListPQ.insert, hl]
    have : ¬ d < dd := not_lt.mpr hle
    simp [this]
  · intro bl u d hlt himp
    have hcond : (decide (d < bl.upper_bound) &&
        (match bl.dists.lookup u with
         | none => true
         | some dd => decide (d < dd))) = true := by
      rcases himp with h | ⟨dd, h, hd⟩
      · rw [h]; simp [hlt]
      · rw [h]; simp [hlt, hd]
    rw [BMSSP.BlockListPQ.insert]
    rw [if_pos hcond]
    exact ⟨BMSSP.alSet_lookup_self _ _ _, rfl, rfl⟩
  · intro bl els
    rfl
  · intro M B ops hops
    have hmk : BMSSP.pqBounded (BMSSP.mkPQ M B : BMSSP.BlockListPQ α) ∧
        BMSSP.distsBounded (BMSSP.mkPQ M B : BMSSP.BlockListPQ α) := by
      constructor
      · intro e he; cases he
      · intro p hp; cases hp
    revert hmk
    generalize BMSSP.mkPQ M B = bl
    revert bl
    induction ops with
    | nil => intro bl h; exact h
    | cons op rest ih =>
      intro bl h
      have h1 := BMSSP.runOp_preserves_bounds bl op
        (hops op (List.mem_cons_self _ _)) h.1 h.2
      rw [List.foldl_cons]
      exact ih (fun o ho => hops o (List.mem_cons_of_mem _ ho)) _ h1

/-- C9: on the priority-queue BlockList of `bmssp.cpp`: when `pull` pops a
stale entry `(c, u)` whose node is absent from `dists`, the
`dists[top.node_id]` lookup default-inserts `0`, and since `c > 0` the
entry is skipped leaving `dists[u] = 0` behind; from then on every
`insert(u, d)` with `d > 0` is a no-op, and along any further operations
feeding non-negative values the poisoned binding persists and `u` never
enters a pulled frontier again. -/
theorem c9_stale_pull_poisons_node {α : Type} [LinearOrderedAddCommMonoid α] :
    (∀ (bl : BMSSP.BlockListPQ α) (c : WithTop α) (u : Nat)
        (rest : List (WithTop α × Nat)),
        bl.pq = (c, u) :: rest → bl.dists.lookup u = none → 0 < c →
        (∀ e ∈ rest, e.2 = u → 0 < e.1) → 0 < bl.M →
        (bl.pull).2.dists.lookup u = some 0 ∧ u ∉ (bl.pull).1.1) ∧
    (∀ (bl : BMSSP.BlockListPQ α) (u : Nat) (d : WithTop α),
        bl.dists.lookup u = some 0 → 0 < d → bl.insert u d = bl) ∧
    (∀ (bl : BMSSP.BlockListPQ α) (u : Nat) (op : BMSSP.PQOp α),
        BMSSP.quirkInv bl u → BMSSP.pqOpNonneg op →
        BMSSP.quirkInv (BMSSP.pqRunOp bl op) u ∧
        (op = BMSSP.PQOp.pl → u ∉ (bl.pull).1.1)) := by
  have key : ∀ (bl : BMSSP.BlockListPQ α) (u : Nat),
      bl.dists.lookup u = some 0 →
      (∀ e ∈ bl.pq, e.2 = u → 0 < e.1) →
      (bl.pull).2.dists.lookup u = some 0 ∧ u ∉ (bl.pull).1.1 ∧
      ∀ e ∈ (bl.pull).2.pq, e ∈ bl.pq := by
    intro bl u hl hpos
    have r := BMSSP.pullLoop_quirk bl.M bl.pq bl.dists [] u hl hpos (by simp)
    rw [BMSSP.BlockListPQ.pull]
    cases hres : BMSSP.BlockListPQ.pullLoop bl.M bl.pq bl.dists [] with
    | mk f rest2 =>
      obtain ⟨pq', dists'⟩ := rest2
      rw [hres] at r
      exact ⟨r.1, r.2.1, r.2.2⟩
  have noop : ∀ (bl : BMSSP.BlockListPQ α) (u : Nat) (d : WithTop α),
      bl.dists.lookup u = some 0 → 0 ≤ d → bl.insert u d = bl := by
    intro bl u d hl hd
    rw [BMSSP.BlockListPQ.insert, hl]
    have : ¬ d < (0 : WithTop α) := not_lt.mpr hd
    simp [this]
  refine ⟨?_, ?_, ?_⟩
  · intro bl c u rest hpq hl hc hrest hM
    have hm : ¬ bl.M ≤ ([] : List Nat).length := by
      simp only [List.length_nil]
      omega
    have hstep : BMSSP.BlockListPQ.pullLoop bl.M bl.pq bl.dists [] =
        BMSSP.BlockListPQ.pullLoop bl.M rest (BMSSP.alSet bl.dists u 0) [] := by
      rw [hpq]
      simp only [BMSSP.BlockListPQ.pullLoop, if_neg hm, hl, if_pos hc]
    have r := BMSSP.pullLoop_quirk bl.M rest (BMSSP.alSet bl.dists u 0) [] u
      (BMSSP.alSet_lookup_self _ _ _) hrest (by simp)
    rw [← hstep] at r
    rw [BMSSP.BlockListPQ.pull]
    cases hres : BMSSP.BlockListPQ.pullLoop bl.M bl.pq bl.dists [] with
    | mk f rest2 =>
      obtain ⟨pq', dists'⟩ := rest2
      rw [hres] at r
      exact ⟨r.1, r.2.1⟩
  · intro bl u d hl hd
    exact noop bl u d hl (le_of_lt hd)
  · intro bl u op hq hop
    obtain ⟨hl, hpos⟩ := hq
    cases op with
    | ins v d =>
      constructor
      · by_cases hv : v = u
        · subst hv
          rw [BMSSP.pqRunOp, noop bl v d hl hop]
          exact ⟨hl, hpos⟩
        · rw [BMSSP.pqRunOp, BMSSP.BlockListPQ.insert]
          split
          · constructor
            · rw [BMSSP.alSet_lookup_ne _ _ _ _ (fun h => hv h.symm)]
              exact hl
            · intro e he heu
              rcases BMSSP.mem_pqPush he with h | h
              · rw [h] at heu
                exact absurd heu hv
              · exact hpos e h heu
          · exact ⟨hl, hpos⟩
      · intro hcontra
        exact absurd hcontra (by simp)
    | bp els =>
      constructor
      · rw [BMSSP.pqRunOp, BMSSP.BlockListPQ.batch_prepend]
        clear key
        revert bl
        induction els with
        | nil => intro bl hl hpos; exact ⟨hl, hpos⟩
        | cons p rest ih =>
          intro bl hl hpos
          have hp : (0 : WithTop α) ≤ p.2 := hop p (List.mem_cons_self _ _)
          have hrest : ∀ q ∈ rest, (0 : WithTop α) ≤ q.2 :=
            fun q hqq => hop q (List.mem_cons_of_mem _ hqq)
          rw [List.foldl_cons]
          have hinv : (bl.insert p.1 p.2).dists.lookup u = some 0 ∧
              ∀ e ∈ (bl.insert p.1 p.2).pq, e.2 = u → 0 < e.1 := by
            by_cases hv : p.1 = u
            · rw [hv, noop bl u p.2 hl hp]
              exact ⟨hl, hpos⟩
            · rw [BMSSP.BlockListPQ.insert]
              split
              · constructor
                · rw [BMSSP.alSet_lookup_ne _ _ _ _ (fun h => hv h.symm)]
                  exact hl
                · intro e he heu
                  rcases BMSSP.mem_pqPush he with h | h
                  · rw [h] at heu
                    exact absurd heu hv
                  · exact hpos e h heu
              · exact ⟨hl, hpos⟩
          exact ih hrest _ hinv.1 hinv.2
      · intro hcontra
        exact absurd hcontra (by simp)
    | pl =>
      have r := key bl u hl hpos
      refine ⟨⟨r.1, fun e he heu => hpos e (r.2.2 e he) heu⟩, fun _ => r.2.1⟩
    | emp =>
      refine ⟨⟨hl, fun e he heu => hpos e (BMSSP.mem_isEmptyLoop he) heu⟩, ?_⟩
      intro hcontra
      exact absurd hcontra (by simp)

/-- Witness for `c9_stale_pull_poisons_node`: the queue holding the single
stale entry `(10, node 1)` with node 1 absent; after `pull`,
`dists[1] = 0` and node 1 is not in the frontier; and on a state with
`dists[1] = 0`, `insert(1, 7)` is a no-op. -/
theorem c9_stale_pull_poisons_node_witness :
    ((⟨2, ((100 : ℕ) : WithTop ℕ), [(((10 : ℕ) : WithTop ℕ), 1)], []⟩ :
        BMSSP.BlockListPQ ℕ).dists.lookup 1 = none ∧
      (0 : WithTop ℕ) < ((10 : ℕ) : WithTop ℕ)) ∧
    (((⟨2, ((100 : ℕ) : WithTop ℕ), [(((10 : ℕ) : WithTop ℕ), 1)], []⟩ :
        BMSSP.BlockListPQ ℕ).pull).2.dists.lookup 1 = some 0 ∧
      1 ∉ ((⟨2, ((100 : ℕ) : WithTop ℕ), [(((10 : ℕ) : WithTop ℕ), 1)], []⟩ :
        BMSSP.BlockListPQ ℕ).pull).1.1) ∧
    (⟨2, ((100 : ℕ) : WithTop ℕ), [], [(1, (0 : WithTop ℕ))]⟩ :
        BMSSP.BlockListPQ ℕ).insert 1 ((7 : ℕ) : WithTop ℕ) =
      ⟨2, ((100 : ℕ) : WithTop ℕ), [], [(1, (0 : WithTop ℕ))]⟩ :=
  ⟨by decide,
   c9_stale_pull_poisons_node.1 _ ((10 : ℕ) : WithTop ℕ) 1 [] rfl (by decide)
     (by decide) (by decide) (by decide),
   c9_stale_pull_poisons_node.2.1 _ 1 ((7 : ℕ) : WithTop ℕ) (by decide) (by decide)⟩

/-- Witness for `c10_pq_insert_bound_invariant`: with bound `5`,
`insert(1, 7)` is dropped; on the state storing `(1, 3)`, `insert(1, 4)`
is a no-op; `insert(1, 2)` on the empty list stores the value; and the
run of `[ins 1 3, ins 2 4, pull]` from `mkPQ 2 5` stays bounded. -/
theorem c10_pq_insert_bound_invariant_witness :
    (((5 : ℕ) : WithTop ℕ) ≤ ((7 : ℕ) : WithTop ℕ) ∧
      (BMSSP.mkPQ 2 ((5 : ℕ) : WithTop ℕ) : BMSSP.BlockListPQ ℕ).insert 1
        ((7 : ℕ) : WithTop ℕ) = BMSSP.mkPQ 2 ((5 : ℕ) : WithTop ℕ)) ∧
    ((BMSSP.mkPQ 2 ((5 : ℕ) : WithTop ℕ) : BMSSP.BlockListPQ ℕ).insert 1
        ((2 : ℕ) : WithTop ℕ)).dists.lookup 1 = some ((2 : ℕ) : WithTop ℕ) ∧
    (BMSSP.pqBounded
        (([BMSSP.PQOp.ins 1 ((3 : ℕ) : WithTop ℕ),
           BMSSP.PQOp.ins 2 ((4 : ℕ) : WithTop ℕ), BMSSP.PQOp.pl] :
            List (BMSSP.PQOp ℕ)).foldl BMSSP.pqRunOp
          (BMSSP.mkPQ 2 ((5 : ℕ) : WithTop ℕ))) ∧
      BMSSP.distsBounded
        (([BMSSP.PQOp.ins 1 ((3 : ℕ) : WithTop ℕ),
           BMSSP.PQOp.ins 2 ((4 : ℕ) : WithTop ℕ), BMSSP.PQOp.pl] :
            List (BMSSP.PQOp ℕ)).foldl BMSSP.pqRunOp
          (BMSSP.mkPQ 2 ((5 : ℕ) : WithTop ℕ)))) :=
  ⟨⟨by decide, c10_pq_insert_bound_invariant.1 _ 1 ((7 : ℕ) : WithTop ℕ) (by decide)⟩,
   (c10_pq_insert_bound_invariant.2.2.1 _ 1 ((2 : ℕ) : WithTop ℕ) (by decide)
     (Or.inl (by decide))).1,
   c10_pq_insert_bound_invariant.2.2.2.2 2 ((5 : ℕ) : WithTop ℕ) _
     (by intro op hop; fin_cases hop <;> simp only [BMSSP.pqOpNonneg] <;> decide)⟩

namespace BMSSP

variable {α : Type} [LinearOrderedAddCommMonoid α]

theorem mcGet_set (mc : List (WithTop α)) (v : Nat) (d : WithTop α) (w : Nat) :
    mcGet (mcSet mc v d) w = if w = v ∧ v < mc.length then d else mcGet mc w := by
  induction mc generalizing v w with
  | nil => simp [mcSet, mcGet]
  | cons a l ih =>
    cases v with
    | zero =>
      cases w with
      | zero => simp [mcSet, mcGet]
      | succ w' => simp [mcSet, mcGet]
    | succ v' =>
      cases w with
      | zero => simp [mcSet, mcGet]
      | succ w' =>
        have := ih v' w'
        simp only [mcSet] at this ⊢
        simp only [List.set_cons_succ, mcGet, List.getD_cons_succ] at this ⊢
        rw [this]
        simp [Nat.succ_lt_succ_iff]

theorem mcSet_le (mc : List (WithTop α)) (v : Nat) (d : WithTop α)
    (h : d ≤ mcGet mc v) : mcLe (mcSet mc v d) mc := by
  intro w
  rw [mcGet_set]
  split
  · rename_i hw
    exact hw.1 ▸ h
  · exact le_refl _

theorem mcSet_nonneg (mc : List (WithTop α)) (v : Nat) (d : WithTop α)
    (hd : 0 ≤ d) (h : mcNonneg mc) : mcNonneg (mcSet mc v d) := by
  intro w
  rw [mcGet_set]
  split
  · exact hd
  · exact h w

theorem mcLe_refl (mc : List (WithTop α)) : mcLe mc mc := fun _ => le_refl _

theorem mcLe_trans {a b c : List (WithTop α)} (h1 : mcLe a b) (h2 : mcLe b c) :
    mcLe a c := fun v => le_trans (h1 v) (h2 v)

theorem adj_edges_nonneg {adj : Graph α} (h : adjNonneg adj) (u : Nat) :
    ∀ e ∈ adj.getD u [], 0 ≤ e.weight := by
  intro e he
  rcases Nat.lt_or_ge u adj.length with hu | hu
  · have : adj.getD u [] = adj.get ⟨u, hu⟩ := by
      rw [List.getD_eq_getElem?_getD, List.getElem?_eq_getElem hu]
      rfl
    rw [this] at he
    exact h _ (adj.get_mem _ _) e he
  · rw [List.getD_eq_getElem?_getD, List.getElem?_eq_none hu] at he
    cases he

theorem coe_weight_nonneg {w : α} (h : 0 ≤ w) : (0 : WithTop α) ≤ (w : WithTop α) := by
  rw [← WithTop.coe_zero]
  exact WithTop.coe_le_coe.mpr h

theorem relaxEdge_mc (bound : WithTop α) (u : Nat) (e : Edge α)
    (st : List (WithTop α) × List Nat × List (Nat × Nat)) :
    mcLe (relaxEdge bound u e st).1 st.1 ∧
    (0 ≤ e.weight → mcNonneg st.1 → mcNonneg (relaxEdge bound u e st).1) := by
  obtain ⟨mc, nl, bp⟩ := st
  rw [relaxEdge]
  by_cases h : mcGet mc u + (e.weight : WithTop α) ≤ mcGet mc e.«to»
  · have hset := mcSet_le mc e.«to» (mcGet mc u + (e.weight : WithTop α)) h
    constructor
    · by_cases hb : mcGet mc u + (e.weight : WithTop α) < bound
      · simpa [h, hb] using hset
      · simpa [h, hb] using hset
    · intro hw hmc
      have hd : (0 : WithTop α) ≤ mcGet mc u + (e.weight : WithTop α) :=
        add_nonneg (hmc u) (coe_weight_nonneg hw)
      have hset2 := mcSet_nonneg mc e.«to» _ hd hmc
      by_cases hb : mcGet mc u + (e.weight : WithTop α) < bound
      · simpa [h, hb] using hset2
      · simpa [h, hb] using hset2
  · constructor
    · simpa [h] using mcLe_refl mc
    · intro _ hmc
      simpa [h] using hmc

theorem relaxLayer_mc (bound : WithTop α) (adj : Graph α) (layer : List Nat)
    (mc : List (WithTop α)) (bp : List (Nat × Nat)) :
    mcLe (relaxLayer bound adj layer mc bp).1 mc ∧
    (adjNonneg adj → mcNonneg mc → mcNonneg (relaxLayer bound adj layer mc bp).1) := by
  rw [relaxLayer]
  have general : ∀ (l : List Nat)
      (st : List (WithTop α) × List Nat × List (Nat × Nat)),
      mcLe (l.foldl (fun st u => (adj.getD u []).foldl
        (fun st' e => relaxEdge bound u e st') st) st).1 st.1 ∧
      (adjNonneg adj → mcNonneg st.1 → mcNonneg (l.foldl (fun st u =>
        (adj.getD u []).foldl (fun st' e => relaxEdge bound u e st') st) st).1) := by
    intro l
    induction l with
    | nil => intro st; exact ⟨mcLe_refl _, fun _ h => h⟩
    | cons u rest ih =>
      intro st
      have inner : ∀ (es : List (Edge α))
          (st0 : List (WithTop α) × List Nat × List (Nat × Nat)),
          (∀ e ∈ es, 0 ≤ e.weight ∨ True) →
          mcLe (es.foldl (fun st' e => relaxEdge bound u e st') st0).1 st0.1 ∧
          ((∀ e ∈ es, 0 ≤ e.weight) → mcNonneg st0.1 →
            mcNonneg (es.foldl (fun st' e => relaxEdge bound u e st') st0).1) := by
        intro es
        induction es with
        | nil => intro st0 _; exact ⟨mcLe_refl _, fun _ h => h⟩
        | cons e erest ih2 =>
          intro st0 _
          have h1 := relaxEdge_mc bound u e st0
          have h2 := ih2 (relaxEdge bound u e st0) (fun _ _ => Or.inr trivial)
          refine ⟨mcLe_trans h2.1 h1.1, ?_⟩
          intro hw hmc
          exact h2.2 (fun x hx => hw x (List.mem_cons_of_mem _ hx))
            (h1.2 (hw e (List.mem_cons_self _ _)) hmc)
      have hstep := inner (adj.getD u []) st (fun _ _ => Or.inr trivial)
      have hrest := ih ((adj.getD u []).foldl (fun st' e => relaxEdge bound u e st') st)
      refine ⟨mcLe_trans hrest.1 hstep.1, ?_⟩
      intro ha hmc
      exact hrest.2 ha (hstep.2 (adj_edges_nonneg ha u) hmc)
  exact general layer (mc, [], bp)

theorem fpRounds_mc (bound : WithTop α) (adj : Graph α) (k : Nat)
    (frontier : List Nat) :
    ∀ (r : Nat) (allL lastL : List Nat) (mc : List (WithTop α))
      (bp : List (Nat × Nat)),
      mcLe (fpRounds bound adj k frontier r allL lastL mc bp).2.2.1 mc ∧
      (adjNonneg adj → mcNonneg mc →
        mcNonneg (fpRounds bound adj k frontier r allL lastL mc bp).2.2.1) := by
  intro r
  induction r with
  | zero => intro allL lastL mc bp; exact ⟨mcLe_refl _, fun _ h => h⟩
  | succ r ih =>
    intro allL lastL mc bp
    have hl := relaxLayer_mc bound adj lastL mc bp
    cases hres : relaxLayer bound adj lastL mc bp with
    | mk mc' rest2 =>
      obtain ⟨nl, bp'⟩ := rest2
      rw [hres] at hl
      simp only [fpRounds, hres]
      split
      · exact hl
      · have hrec := ih (allL ++ nl) nl mc' bp'
        exact ⟨mcLe_trans hrec.1 hl.1, fun ha hmc => hrec.2 ha (hl.2 ha hmc)⟩

theorem find_pivots_mc (bound : WithTop α) (frontier : List Nat) (k : Nat)
    (adj : Graph α) (mc : List (WithTop α)) :
    mcLe (find_pivots bound frontier k adj mc).2.2.1 mc ∧
    (adjNonneg adj → mcNonneg mc →
      mcNonneg (find_pivots bound frontier k adj mc).2.2.1) := by
  have h := fpRounds_mc bound adj k frontier k frontier frontier mc []
  rw [find_pivots]
  cases hres : fpRounds bound adj k frontier k frontier frontier mc [] with
  | mk allL rest2 =>
    obtain ⟨lastL, mc', bp, sc⟩ := rest2
    rw [hres] at h
    by_cases hsc : sc = true
    · simpa [hsc] using h
    · have hsc' : sc = false := by
        cases sc
        · rfl
        · exact absurd rfl hsc
      cases hp : pivotLoop bp k lastL [] [] true with
      | mk piv ok => simpa [hsc', hp] using h

end BMSSP

namespace BMSSP

variable {α : Type} [LinearOrderedAddCommMonoid α]

theorem baseFold_mc (B : WithTop α) (c : WithTop α) (u : Nat) (adj : Graph α) :
    ∀ (es : List (Edge α)) (mc : List (WithTop α)) (q : List (WithTop α × Nat)),
      mcLe (es.foldl (fun (acc : List (WithTop α) × List (WithTop α × Nat)) e =>
          match acc with
          | (m, qq) =>
            match c + (e.weight : WithTop α) with
            | d =>
              if d ≤ mcGet m e.«to» && d < B then
                (mcSet m e.«to» d, pqPush qq (d, e.«to»))
              else (m, qq)) (mc, q)).1 mc ∧
      ((∀ e ∈ es, 0 ≤ e.weight) → 0 ≤ c → mcNonneg mc →
        mcNonneg (es.foldl (fun (acc : List (WithTop α) × List (WithTop α × Nat)) e =>
          match acc with
          | (m, qq) =>
            match c + (e.weight : WithTop α) with
            | d =>
              if d ≤ mcGet m e.«to» && d < B then
                (mcSet m e.«to» d, pqPush qq (d, e.«to»))
              else (m, qq)) (mc, q)).1 ∧
        (∀ e ∈ (es.foldl (fun (acc : List (WithTop α) × List (WithTop α × Nat)) e =>
          match acc with
          | (m, qq) =>
            match c + (e.weight : WithTop α) with
            | d =>
              if d ≤ mcGet m e.«to» && d < B then
                (mcSet m e.«to» d, pqPush qq (d, e.«to»))
              else (m, qq)) (mc, q)).2, (∀ x ∈ q, 0 ≤ x.1) → 0 ≤ e.1)) := by
  intro es
  induction es with
  | nil =>
    intro mc q
    exact ⟨mcLe_refl _, fun _ _ h => ⟨h, fun e he hq => hq e he⟩⟩
  | cons e erest ih =>
    intro mc q
    rw [List.foldl_cons]
    by_cases hg : (c + (e.weight : WithTop α) ≤ mcGet mc e.«to» ∧
        c + (e.weight : WithTop α) < B)
    · have hgb : (decide (c + (e.weight : WithTop α) ≤ mcGet mc e.«to») &&
          decide (c + (e.weight : WithTop α) < B)) = true := by
        simp [hg.1, hg.2]
      simp only [hgb, if_pos]
      have hrec := ih (mcSet mc e.«to» (c + (e.weight : WithTop α)))
        (pqPush q (c + (e.weight : WithTop α), e.«to»))
      refine ⟨mcLe_trans hrec.1 (mcSet_le _ _ _ hg.1), ?_⟩
      intro hw hc hmc
      have hd : (0 : WithTop α) ≤ c + (e.weight : WithTop α) :=
        add_nonneg hc (coe_weight_nonneg (hw e (List.mem_cons_self _ _)))
      have h2 := hrec.2 (fun x hx => hw x (List.mem_cons_of_mem _ hx)) hc
        (mcSet_nonneg _ _ _ hd hmc)
      refine ⟨h2.1, ?_⟩
      intro x hx hq
      refine h2.2 x hx ?_
      intro y hy
      rcases mem_pqPush hy with h | h
      · rw [h]; exact hd
      · exact hq y h
    · have hgb : (decide (c + (e.weight : WithTop α) ≤ mcGet mc e.«to») &&
          decide (c + (e.weight : WithTop α) < B)) = false := by
        rcases not_and_or.mp hg with h | h <;> simp [h]
      simp only [hgb, Bool.false_eq_true, if_neg, not_false_iff]
      have hrec := ih mc q
      refine ⟨hrec.1, ?_⟩
      intro hw hc hmc
      exact hrec.2 (fun x hx => hw x (List.mem_cons_of_mem _ hx)) hc hmc

theorem baseLoop_mc (adj : Graph α) (B : WithTop α) (k : Nat) :
    ∀ (fuel : Nat) (pq : List (WithTop α × Nat)) (settled : List Nat)
      (maxc : WithTop α) (mc : List (WithTop α)),
      mcLe (baseLoop adj B k fuel pq settled maxc mc).2.2.1 mc ∧
      (adjNonneg adj → (∀ e ∈ pq, 0 ≤ e.1) → mcNonneg mc →
        mcNonneg (baseLoop adj B k fuel pq settled maxc mc).2.2.1) := by
  intro fuel
  induction fuel with
  | zero =>
    intro pq settled maxc mc
    cases pq with
    | nil =>
      rw [baseLoop.eq_def]
      exact ⟨mcLe_refl _, fun _ _ h => h⟩
    | cons e rest =>
      obtain ⟨c, u⟩ := e
      rw [baseLoop.eq_def]
      dsimp only
      split
      · exact ⟨mcLe_refl _, fun _ _ h => h⟩
      · exact ⟨mcLe_refl _, fun _ _ h => h⟩
  | succ fuel ih =>
    intro pq settled maxc mc
    cases pq with
    | nil =>
      rw [baseLoop.eq_def]
      exact ⟨mcLe_refl _, fun _ _ h => h⟩
    | cons e rest =>
      obtain ⟨c, u⟩ := e
      rw [baseLoop.eq_def]
      dsimp only
      split
      · exact ⟨mcLe_refl _, fun _ _ h => h⟩
      · by_cases hv : settled.contains u
        · simp only [hv, if_pos]
          have hrec := ih rest settled maxc mc
          exact ⟨hrec.1, fun ha hq hmc =>
            hrec.2 ha (fun x hx => hq x (List.mem_cons_of_mem _ hx)) hmc⟩
        · simp only [hv, Bool.false_eq_true, if_neg, not_false_iff]
          have hfold := baseFold_mc B c u adj (adj.getD u []) mc rest
          cases hres : (adj.getD u []).foldl
              (fun (acc : List (WithTop α) × List (WithTop α × Nat)) e =>
                match acc with
                | (m, qq) =>
                  match c + (e.weight : WithTop α) with
                  | d =>
                    if d ≤ mcGet m e.«to» && d < B then
                      (mcSet m e.«to» d, pqPush qq (d, e.«to»))
                    else (m, qq)) (mc, rest) with
          | mk mc' pq' =>
            rw [hres] at hfold
            have hrec := ih pq' (settled ++ [u]) (max maxc c) mc'
            refine ⟨mcLe_trans hrec.1 hfold.1, ?_⟩
            intro ha hq hmc
            have hc : (0 : WithTop α) ≤ c := (hq (c, u) (List.mem_cons_self _ _))
            have h2 := hfold.2 (adj_edges_nonneg ha u) hc hmc
            refine hrec.2 ha ?_ h2.1
            intro x hx
            exact h2.2 x hx (fun y hy => hq y (List.mem_cons_of_mem _ hy))

theorem base_bmssp_mc (B : WithTop α) (s : Nat) (k : Nat) (adj : Graph α)
    (mc : List (WithTop α)) (fuel : Nat) :
    mcLe (base_bmssp B s k adj mc fuel).2.2.1 mc ∧
    (adjNonneg adj → mcNonneg mc →
      mcNonneg (base_bmssp B s k adj mc fuel).2.2.1) := by
  have h := baseLoop_mc adj B k fuel [(mcGet mc s, s)] [] (mcGet mc s) mc
  have hq : ∀ hmc : mcNonneg mc, ∀ e ∈ [(mcGet mc s, s)], (0 : WithTop α) ≤ e.1 := by
    intro hmc e he
    rw [List.mem_singleton] at he
    rw [he]
    exact hmc s
  cases hres : baseLoop adj B k fuel [(mcGet mc s, s)] [] (mcGet mc s) mc with
  | mk settled rest2 =>
    obtain ⟨maxc, mc', pqr, ok⟩ := rest2
    rw [hres] at h
    simp only [base_bmssp, hres]
    split
    · exact ⟨h.1, fun ha hmc => h.2 ha (hq hmc) hmc⟩
    · exact ⟨h.1, fun ha hmc => h.2 ha (hq hmc) hmc⟩

theorem relaxAfterRec_mc (adj : Graph α) (B pb rb : WithTop α) (u : Nat)
    (st : List (WithTop α) × BlockListPQ α × List (Nat × WithTop α)) :
    mcLe (relaxAfterRec adj B pb rb u st).1 st.1 ∧
    (adjNonneg adj → mcNonneg st.1 → mcNonneg (relaxAfterRec adj B pb rb u st).1) := by
  rw [relaxAfterRec]
  have general : ∀ (es : List (Edge α))
      (st0 : List (WithTop α) × BlockListPQ α × List (Nat × WithTop α)),
      mcLe (es.foldl (fun st' e =>
        match st' with
        | (mc, bl, tp) =>
          match mcGet mc u + (e.weight : WithTop α) with
          | d =>
            if d ≤ mcGet mc e.«to» then
              if pb ≤ d && d < B then (mcSet mc e.«to» d, bl.insert e.«to» d, tp)
              else if rb ≤ d && d < pb then
                (mcSet mc e.«to» d, bl, tp ++ [(e.«to», d)])
              else (mcSet mc e.«to» d, bl, tp)
            else (mc, bl, tp)) st0).1 st0.1 ∧
      ((∀ e ∈ es, 0 ≤ e.weight) → mcNonneg st0.1 →
        mcNonneg (es.foldl (fun st' e =>
        match st' with
        | (mc, bl, tp) =>
          match mcGet mc u + (e.weight : WithTop α) with
          | d =>
            if d ≤ mcGet mc e.«to» then
              if pb ≤ d && d < B then (mcSet mc e.«to» d, bl.insert e.«to» d, tp)
              else if rb ≤ d && d < pb then
                (mcSet mc e.«to» d, bl, tp ++ [(e.«to», d)])
              else (mcSet mc e.«to» d, bl, tp)
            else (mc, bl, tp)) st0).1) := by
    intro es
    induction es with
    | nil => intro st0; exact ⟨mcLe_refl _, fun _ h => h⟩
    | cons e erest ih =>
      intro st0
      obtain ⟨mc0, bl0, tp0⟩ := st0
      rw [List.foldl_cons]
      by_cases hg : mcGet mc0 u + (e.weight : WithTop α) ≤ mcGet mc0 e.«to»
      · have hle := mcSet_le mc0 e.«to» (mcGet mc0 u + (e.weight : WithTop α)) hg
        by_cases h1 : (pb ≤ mcGet mc0 u + (e.weight : WithTop α) ∧
            mcGet mc0 u + (e.weight : WithTop α) < B)
        · have hb : (decide (pb ≤ mcGet mc0 u + (e.weight : WithTop α)) &&
              decide (mcGet mc0 u + (e.weight : WithTop α) < B)) = true := by
            simp [h1.1, h1.2]
          simp only [hg, if_pos, hb]
          refine ⟨mcLe_trans (ih _).1 hle, ?_⟩
          intro hw hmc
          have hd : (0 : WithTop α) ≤ mcGet mc0 u + (e.weight : WithTop α) :=
            add_nonneg (hmc u) (coe_weight_nonneg (hw e (List.mem_cons_self _ _)))
          exact (ih _).2 (fun x hx => hw x (List.mem_cons_of_mem _ hx))
            (mcSet_nonneg _ _ _ hd hmc)
        · have hb : (decide (pb ≤ mcGet mc0 u + (e.weight : WithTop α)) &&
              decide (mcGet mc0 u + (e.weight : WithTop α) < B)) = false := by
            rcases not_and_or.mp h1 with h | h <;> simp [h]
          by_cases h2 : (rb ≤ mcGet mc0 u + (e.weight : WithTop α) ∧
              mcGet mc0 u + (e.weight : WithTop α) < pb)
          · have hb2 : (decide (rb ≤ mcGet mc0 u + (e.weight : WithTop α)) &&
                decide (mcGet mc0 u + (e.weight : WithTop α) < pb)) = true := by
              simp [h2.1, h2.2]
            simp only [hg, if_pos, hb, hb2, Bool.false_eq_true, if_neg,
              not_false_iff]
            refine ⟨mcLe_trans (ih _).1 hle, ?_⟩
            intro hw hmc
            have hd : (0 : WithTop α) ≤ mcGet mc0 u + (e.weight : WithTop α) :=
              add_nonneg (hmc u) (coe_weight_nonneg (hw e (List.mem_cons_self _ _)))
            exact (ih _).2 (fun x hx => hw x (List.mem_cons_of_mem _ hx))
              (mcSet_nonneg _ _ _ hd hmc)
          · have hb2 : (decide (rb ≤ mcGet mc0 u + (e.weight : WithTop α)) &&
                decide (mcGet mc0 u + (e.weight : WithTop α) < pb)) = false := by
              rcases not_and_or.mp h2 with h | h <;> simp [h]
            simp only [hg, if_pos, hb, hb2, Bool.false_eq_true, if_neg,
              not_false_iff]
            refine ⟨mcLe_trans (ih _).1 hle, ?_⟩
            intro hw hmc
            have hd : (0 : WithTop α) ≤ mcGet mc0 u + (e.weight : WithTop α) :=
              add_nonneg (hmc u) (coe_weight_nonneg (hw e (List.mem_cons_self _ _)))
            exact (ih _).2 (fun x hx => hw x (List.mem_cons_of_mem _ hx))
              (mcSet_nonneg _ _ _ hd hmc)
      · simp only [hg, if_neg, not_false_iff]
        exact ⟨(ih _).1, fun hw hmc =>
          (ih _).2 (fun x hx => hw x (List.mem_cons_of_mem _ hx)) hmc⟩
  have h := general (adj.getD u []) st
  exact ⟨h.1, fun ha hmc => h.2 (adj_edges_nonneg ha u) hmc⟩

end BMSSP

namespace BMSSP

variable {α : Type} [LinearOrderedAddCommMonoid α]

theorem uFold_mc (adj : Graph α) (B pb rb : WithTop α) :
    ∀ (ru : List Nat)
      (start : List Nat × List (WithTop α) × BlockListPQ α × List (Nat × WithTop α)),
      mcLe (ru.foldl
        (fun (acc : List Nat × List (WithTop α) × BlockListPQ α ×
            List (Nat × WithTop α)) u =>
          match acc with
          | (us, m, b, tp) =>
            match relaxAfterRec adj B pb rb u (m, b, tp) with
            | (m', b', tp') => (us ++ [u], m', b', tp')) start).2.1 start.2.1 ∧
      (adjNonneg adj → mcNonneg start.2.1 →
        mcNonneg (ru.foldl
        (fun (acc : List Nat × List (WithTop α) × BlockListPQ α ×
            List (Nat × WithTop α)) u =>
          match acc with
          | (us, m, b, tp) =>
            match relaxAfterRec adj B pb rb u (m, b, tp) with
            | (m', b', tp') => (us ++ [u], m', b', tp')) start).2.1) := by
  intro ru
  induction ru with
  | nil => intro start; exact ⟨mcLe_refl _, fun _ h => h⟩
  | cons u urest ih =>
    intro start
    obtain ⟨us, m, b, tp⟩ := start
    rw [List.foldl_cons]
    dsimp only
    have hr := relaxAfterRec_mc adj B pb rb u (m, b, tp)
    cases hres : relaxAfterRec adj B pb rb u (m, b, tp) with
    | mk m' rest2 =>
      obtain ⟨b', tp'⟩ := rest2
      rw [hres] at hr
      dsimp only
      have hrec := ih (us ++ [u], m', b', tp')
      exact ⟨mcLe_trans hrec.1 hr.1,
        fun ha hmc => hrec.2 ha (hr.2 ha hmc)⟩

theorem bmsspLoop_mc
    (recurse : WithTop α → List Nat → List (WithTop α) →
      WithTop α × List Nat × List (WithTop α) × Bool)
    (adj : Graph α) (B : WithTop α) (max_u : Nat)
    (hrec : ∀ b f m, mcLe (recurse b f m).2.2.1 m ∧
        (mcNonneg m → mcNonneg (recurse b f m).2.2.1))
    (ha : adjNonneg adj) :
    ∀ (fuel : Nat) (bl : BlockListPQ α) (uset : List Nat) (minub : WithTop α)
      (mc : List (WithTop α)),
      mcLe (bmsspLoop recurse adj B max_u fuel bl uset minub mc).2.2.1 mc ∧
      (mcNonneg mc →
        mcNonneg (bmsspLoop recurse adj B max_u fuel bl uset minub mc).2.2.1) := by
  intro fuel
  induction fuel with
  | zero =>
    intro bl uset minub mc
    rw [bmsspLoop.eq_def]
    dsimp only
    split
    · exact ⟨mcLe_refl _, fun h => h⟩
    · cases hem : bl.is_empty with
      | mk em bl₁ =>
        dsimp only
        split
        · exact ⟨mcLe_refl _, fun h => h⟩
        · exact ⟨mcLe_refl _, fun h => h⟩
  | succ fuel ih =>
    intro bl uset minub mc
    rw [bmsspLoop.eq_def]
    dsimp only
    split
    · exact ⟨mcLe_refl _, fun h => h⟩
    · cases hem : bl.is_empty with
      | mk em bl₁ =>
        dsimp only
        split
        · exact ⟨mcLe_refl _, fun h => h⟩
        · cases hpr : bl₁.pull with
          | mk fb bl₂ =>
            obtain ⟨pf, pb⟩ := fb
            dsimp only
            have hr := hrec pb pf mc
            cases hrr : recurse pb pf mc with
            | mk rb rest2 =>
              obtain ⟨ru, mc₁, rok⟩ := rest2
              rw [hrr] at hr
              dsimp only
              have hf := uFold_mc adj B pb rb ru (uset, mc₁, bl₂, [])
              cases hst : ru.foldl
                  (fun (acc : List Nat × List (WithTop α) × BlockListPQ α ×
                      List (Nat × WithTop α)) u =>
                    match acc with
                    | (us, m, b, tp) =>
                      match relaxAfterRec adj B pb rb u (m, b, tp) with
                      | (m', b', tp') => (us ++ [u], m', b', tp'))
                  (uset, mc₁, bl₂, []) with
              | mk uset' rest3 =>
                obtain ⟨mc₂, bl₃, tp⟩ := rest3
                rw [hst] at hf
                dsimp only
                have hrec2 := ih (bl₃.batch_prepend tp) uset' rb mc₂
                cases hloop : bmsspLoop recurse adj B max_u fuel
                    (bl₃.batch_prepend tp) uset' rb mc₂ with
                | mk fbb rest4 =>
                  obtain ⟨fu, fm, fok⟩ := rest4
                  rw [hloop] at hrec2
                  refine ⟨mcLe_trans (mcLe_trans hrec2.1 hf.1) hr.1, ?_⟩
                  intro hmc
                  exact hrec2.2 (hf.2 ha (hr.2 hmc))

theorem bmssp_bounded_mc (adj : Graph α) (k t : Nat) (ha : adjNonneg adj) :
    ∀ (l : Nat) (B : WithTop α) (frontier : List Nat) (mc : List (WithTop α))
      (fuel : Nat),
      mcLe (bmssp_bounded adj k t l B frontier mc fuel).2.2.1 mc ∧
      (mcNonneg mc →
        mcNonneg (bmssp_bounded adj k t l B frontier mc fuel).2.2.1) := by
  intro l
  induction l with
  | zero =>
    intro B frontier mc fuel
    have h := base_bmssp_mc B (frontier.headD 0) k adj mc fuel
    exact ⟨h.1, fun hmc => h.2 ha hmc⟩
  | succ l ih =>
    intro B frontier mc fuel
    simp only [bmssp_bounded]
    have hfp := find_pivots_mc B frontier k adj mc
    cases hres : find_pivots B frontier k adj mc with
    | mk piv rest2 =>
      obtain ⟨vis, mc₀, pok⟩ := rest2
      rw [hres] at hfp
      dsimp only
      have hloopmc := bmsspLoop_mc (fun b f m => bmssp_bounded adj k t l b f m fuel)
        adj B (k * 2 ^ (t * (l + 1)))
        (fun b f m => ⟨(ih b f m fuel).1, fun hm => (ih b f m fuel).2 hm⟩) ha
      cases hseed : piv.foldl
          (fun (acc : BlockListPQ α × WithTop α) p =>
            match acc with
            | (b, mu) => (b.insert p (mcGet mc₀ p), min mu (mcGet mc₀ p)))
          (⟨2 ^ (t * l), B, [], []⟩, B) with
      | mk bl₀ minub =>
        dsimp only
        have hl := hloopmc fuel bl₀ [] minub mc₀
        cases hloop : bmsspLoop (fun b f m => bmssp_bounded adj k t l b f m fuel)
            adj B (k * 2 ^ (t * (l + 1))) fuel bl₀ [] minub mc₀ with
        | mk rb rest3 =>
          obtain ⟨ru, mc₁, lok⟩ := rest3
          rw [hloop] at hl
          dsimp only
          exact ⟨mcLe_trans hl.1 hfp.1, fun hmc => hl.2 (hfp.2 ha hmc)⟩

end BMSSP

/-- C7: with non-negative edge weights, `min_costs` only ever decreases
and never becomes negative: across `find_pivots`, `base_bmssp` and the
recursive `bmssp_bounded` driver (at every fuel, hence after every prefix
of the execution), the resulting vector is pointwise `≤` the input vector
— every write is guarded by `d ≤ min_costs[e.to]` — and non-negativity of
all entries is preserved. -/
theorem c7_min_costs_monotone {α : Type} [LinearOrderedAddCommMonoid α]
    (adj : BMSSP.Graph α) (ha : BMSSP.adjNonneg adj) :
    (∀ (bound : WithTop α) (frontier : List Nat) (k : Nat)
        (mc : List (WithTop α)),
        BMSSP.mcLe (BMSSP.find_pivots bound frontier k adj mc).2.2.1 mc ∧
        (BMSSP.mcNonneg mc →
          BMSSP.mcNonneg (BMSSP.find_pivots bound frontier k adj mc).2.2.1)) ∧
    (∀ (B : WithTop α) (s k : Nat) (mc : List (WithTop α)) (fuel : Nat),
        BMSSP.mcLe (BMSSP.base_bmssp B s k adj mc fuel).2.2.1 mc ∧
        (BMSSP.mcNonneg mc →
          BMSSP.mcNonneg (BMSSP.base_bmssp B s k adj mc fuel).2.2.1)) ∧
    (∀ (k t l : Nat) (B : WithTop α) (frontier : List Nat)
        (mc : List (WithTop α)) (fuel : Nat),
        BMSSP.mcLe (BMSSP.bmssp_bounded adj k t l B frontier mc fuel).2.2.1 mc ∧
        (BMSSP.mcNonneg mc →
          BMSSP.mcNonneg (BMSSP.bmssp_bounded adj k t l B frontier mc fuel).2.2.1)) := by
  refine ⟨?_, ?_, ?_⟩
  · intro bound frontier k mc
    have h := BMSSP.find_pivots_mc bound frontier k adj mc
    exact ⟨h.1, fun hmc => h.2 ha hmc⟩
  · intro B s k mc fuel
    have h := BMSSP.base_bmssp_mc B s k adj mc fuel
    exact ⟨h.1, fun hmc => h.2 ha hmc⟩
  · intro k t l B frontier mc fuel
    exact BMSSP.bmssp_bounded_mc adj k t ha l B frontier mc fuel

/-- Witness for `c7_min_costs_monotone`, instantiated on the concrete
8-node graph `cexAdj` (all weights non-negative). -/
theorem c7_min_costs_monotone_witness :
    BMSSP.adjNonneg BMSSP.cexAdj ∧
    ((∀ (bound : WithTop ℕ) (frontier : List Nat) (k : Nat)
        (mc : List (WithTop ℕ)),
        BMSSP.mcLe (BMSSP.find_pivots bound frontier k BMSSP.cexAdj mc).2.2.1 mc ∧
        (BMSSP.mcNonneg mc →
          BMSSP.mcNonneg (BMSSP.find_pivots bound frontier k BMSSP.cexAdj mc).2.2.1)) ∧
    (∀ (B : WithTop ℕ) (s k : Nat) (mc : List (WithTop ℕ)) (fuel : Nat),
        BMSSP.mcLe (BMSSP.base_bmssp B s k BMSSP.cexAdj mc fuel).2.2.1 mc ∧
        (BMSSP.mcNonneg mc →
          BMSSP.mcNonneg (BMSSP.base_bmssp B s k BMSSP.cexAdj mc fuel).2.2.1)) ∧
    (∀ (k t l : Nat) (B : WithTop ℕ) (frontier : List Nat)
        (mc : List (WithTop ℕ)) (fuel : Nat),
        BMSSP.mcLe (BMSSP.bmssp_bounded BMSSP.cexAdj k t l B frontier mc fuel).2.2.1 mc ∧
        (BMSSP.mcNonneg mc →
          BMSSP.mcNonneg (BMSSP.bmssp_bounded BMSSP.cexAdj k t l B frontier mc fuel).2.2.1))) :=
  ⟨by unfold BMSSP.adjNonneg; decide,
   c7_min_costs_monotone BMSSP.cexAdj (by unfold BMSSP.adjNonneg; decide)⟩

namespace BMSSP

variable {α : Type} [LinearOrderedAddCommMonoid α]

theorem baseFold_below (B : WithTop α) (c : WithTop α) (u : Nat) (adj : Graph α)
    (mc₀ : List (WithTop α)) :
    ∀ (es : List (Edge α)) (mc : List (WithTop α)) (q : List (WithTop α × Nat)),
      (∀ v, mcGet mc v ≠ mcGet mc₀ v → mcGet mc v < B) →
      ∀ v, mcGet (es.foldl (fun (acc : List (WithTop α) × List (WithTop α × Nat)) e =>
          match acc with
          | (m, qq) =>
            match c + (e.weight : WithTop α) with
            | d =>
              if d ≤ mcGet m e.«to» && d < B then
                (mcSet m e.«to» d, pqPush qq (d, e.«to»))
              else (m, qq)) (mc, q)).1 v ≠ mcGet mc₀ v →
        mcGet (es.foldl (fun (acc : List (WithTop α) × List (WithTop α × Nat)) e =>
          match acc with
          | (m, qq) =>
            match c + (e.weight : WithTop α) with
            | d =>
              if d ≤ mcGet m e.«to» && d < B then
                (mcSet m e.«to» d, pqPush qq (d, e.«to»))
              else (m, qq)) (mc, q)).1 v < B := by
  intro es
  induction es with
  | nil => intro mc q h; exact h
  | cons e erest ih =>
    intro mc q h
    rw [List.foldl_cons]
    dsimp only
    by_cases hg : (c + (e.weight : WithTop α) ≤ mcGet mc e.«to» ∧
        c + (e.weight : WithTop α) < B)
    · have hgb : (decide (c + (e.weight : WithTop α) ≤ mcGet mc e.«to») &&
          decide (c + (e.weight : WithTop α) < B)) = true := by
        simp [hg.1, hg.2]
      rw [hgb]
      apply ih
      intro v hv
      rw [mcGet_set] at hv ⊢
      split at hv
      · rw [if_pos (by assumption)]
        exact hg.2
      · rw [if_neg (by assumption)]
        exact h v hv
    · have hgb : (decide (c + (e.weight : WithTop α) ≤ mcGet mc e.«to») &&
          decide (c + (e.weight : WithTop α) < B)) = false := by
        rcases not_and_or.mp hg with hh | hh <;> simp [hh]
      rw [hgb]
      exact ih mc q h

theorem baseLoop_spec (adj : Graph α) (B : WithTop α) (k : Nat)
    (mc₀ : List (WithTop α)) :
    ∀ (fuel : Nat) (pq : List (WithTop α × Nat)) (settled : List Nat)
      (maxc : WithTop α) (mc : List (WithTop α)),
      settled.Nodup →
      settled.length ≤ k + 1 →
      (∀ v, mcGet mc v ≠ mcGet mc₀ v → mcGet mc v < B) →
      (baseLoop adj B k fuel pq settled maxc mc).1.Nodup ∧
      (baseLoop adj B k fuel pq settled maxc mc).1.length ≤ k + 1 ∧
      ((baseLoop adj B k fuel pq settled maxc mc).2.2.2.2 = true →
        (baseLoop adj B k fuel pq settled maxc mc).2.2.2.1 = [] ∨
        k + 1 ≤ (baseLoop adj B k fuel pq settled maxc mc).1.length) ∧
      (∀ v, mcGet (baseLoop adj B k fuel pq settled maxc mc).2.2.1 v ≠ mcGet mc₀ v →
        mcGet (baseLoop adj B k fuel pq settled maxc mc).2.2.1 v < B) := by
  intro fuel
  induction fuel with
  | zero =>
    intro pq settled maxc mc hnod hlen hinv
    cases pq with
    | nil =>
      rw [baseLoop.eq_def]
      exact ⟨hnod, hlen, fun _ => Or.inl rfl, hinv⟩
    | cons e rest =>
      obtain ⟨c, u⟩ := e
      rw [baseLoop.eq_def]
      dsimp only
      split
      · rename_i hk
        exact ⟨hnod, hlen, fun _ => Or.inr hk, hinv⟩
      · exact ⟨hnod, hlen, fun hfalse => absurd hfalse (by simp), hinv⟩
  | succ fuel ih =>
    intro pq settled maxc mc hnod hlen hinv
    cases pq with
    | nil =>
      rw [baseLoop.eq_def]
      exact ⟨hnod, hlen, fun _ => Or.inl rfl, hinv⟩
    | cons e rest =>
      obtain ⟨c, u⟩ := e
      rw [baseLoop.eq_def]
      dsimp only
      split
      · rename_i hk
        exact ⟨hnod, hlen, fun _ => Or.inr hk, hinv⟩
      · rename_i hk
        by_cases hv : settled.contains u
        · simp only [hv, if_pos]
          exact ih rest settled maxc mc hnod hlen hinv
        · simp only [hv, Bool.false_eq_true, if_neg, not_false_iff]
          have hmem : u ∉ settled := by
            simpa using (Bool.not_eq_true _).mp hv
          have hnod' : (settled ++ [u]).Nodup := by
            simpa using List.Nodup.concat hmem hnod
          have hlen' : (settled ++ [u]).length ≤ k + 1 := by
            rw [List.length_append, List.length_singleton]
            omega
          have hbelow := baseFold_below B c u adj mc₀ (adj.getD u []) mc rest hinv
          cases hres : (adj.getD u []).foldl
              (fun (acc : List (WithTop α) × List (WithTop α × Nat)) e =>
                match acc with
                | (m, qq) =>
                  match c + (e.weight : WithTop α) with
                  | d =>
                    if d ≤ mcGet m e.«to» && d < B then
                      (mcSet m e.«to» d, pqPush qq (d, e.«to»))
                    else (m, qq)) (mc, rest) with
          | mk mc' pq' =>
            rw [hres] at hbelow
            exact ih pq' (settled ++ [u]) (max maxc c) mc' hnod' hlen' hbelow

end BMSSP

/-- C4: `base_bmssp` runs a truncated Dijkstra from `s` with initial cost
`min_costs[s]`: the settled list has no duplicates and at most `k + 1`
members; a completed loop stopped because the heap emptied or exactly
`k + 1` nodes were settled; every modified `min_costs` entry was written
by a relaxation with tentative value `< B`; and the result is `(B,
settled)` when at most `k` nodes were settled, else `(max_cost, {v ∈
settled : min_costs[v] < max_cost})`. -/
theorem c4_base_bmssp_spec {α : Type} [LinearOrderedAddCommMonoid α]
    (B : WithTop α) (s k : Nat) (adj : BMSSP.Graph α) (mc : List (WithTop α))
    (fuel : Nat) :
    (BMSSP.baseLoop adj B k fuel [(BMSSP.mcGet mc s, s)] [] (BMSSP.mcGet mc s)
        mc).1.Nodup ∧
    (BMSSP.baseLoop adj B k fuel [(BMSSP.mcGet mc s, s)] [] (BMSSP.mcGet mc s)
        mc).1.length ≤ k + 1 ∧
    ((BMSSP.baseLoop adj B k fuel [(BMSSP.mcGet mc s, s)] [] (BMSSP.mcGet mc s)
        mc).2.2.2.2 = true →
      (BMSSP.baseLoop adj B k fuel [(BMSSP.mcGet mc s, s)] [] (BMSSP.mcGet mc s)
        mc).2.2.2.1 = [] ∨
      (BMSSP.baseLoop adj B k fuel [(BMSSP.mcGet mc s, s)] [] (BMSSP.mcGet mc s)
        mc).1.length = k + 1) ∧
    (∀ v, BMSSP.mcGet (BMSSP.baseLoop adj B k fuel [(BMSSP.mcGet mc s, s)] []
        (BMSSP.mcGet mc s) mc).2.2.1 v ≠ BMSSP.mcGet mc v →
      BMSSP.mcGet (BMSSP.baseLoop adj B k fuel [(BMSSP.mcGet mc s, s)] []
        (BMSSP.mcGet mc s) mc).2.2.1 v < B) ∧
    ((BMSSP.baseLoop adj B k fuel [(BMSSP.mcGet mc s, s)] [] (BMSSP.mcGet mc s)
        mc).1.length ≤ k →
      BMSSP.base_bmssp B s k adj mc fuel =
        (B, (BMSSP.baseLoop adj B k fuel [(BMSSP.mcGet mc s, s)] []
          (BMSSP.mcGet mc s) mc).1,
          (BMSSP.baseLoop adj B k fuel [(BMSSP.mcGet mc s, s)] []
            (BMSSP.mcGet mc s) mc).2.2.1,
          (BMSSP.baseLoop adj B k fuel [(BMSSP.mcGet mc s, s)] []
            (BMSSP.mcGet mc s) mc).2.2.2.2)) ∧
    (k < (BMSSP.baseLoop adj B k fuel [(BMSSP.mcGet mc s, s)] []
        (BMSSP.mcGet mc s) mc).1.length →
      BMSSP.base_bmssp B s k adj mc fuel =
        ((BMSSP.baseLoop adj B k fuel [(BMSSP.mcGet mc s, s)] []
          (BMSSP.mcGet mc s) mc).2.1,
          ((BMSSP.baseLoop adj B k fuel [(BMSSP.mcGet mc s, s)] []
            (BMSSP.mcGet mc s) mc).1).filter
            (fun v => BMSSP.mcGet (BMSSP.baseLoop adj B k fuel
              [(BMSSP.mcGet mc s, s)] [] (BMSSP.mcGet mc s) mc).2.2.1 v <
              (BMSSP.baseLoop adj B k fuel [(BMSSP.mcGet mc s, s)] []
                (BMSSP.mcGet mc s) mc).2.1),
          (BMSSP.baseLoop adj B k fuel [(BMSSP.mcGet mc s, s)] []
            (BMSSP.mcGet mc s) mc).2.2.1,
          (BMSSP.baseLoop adj B k fuel [(BMSSP.mcGet mc s, s)] []
            (BMSSP.mcGet mc s) mc).2.2.2.2)) := by
  have h := BMSSP.baseLoop_spec adj B k mc fuel [(BMSSP.mcGet mc s, s)] []
    (BMSSP.mcGet mc s) mc List.nodup_nil (by simp) (fun v hv => absurd rfl hv)
  cases hres : BMSSP.baseLoop adj B k fuel [(BMSSP.mcGet mc s, s)] []
      (BMSSP.mcGet mc s) mc with
  | mk settled rest2 =>
    obtain ⟨maxc, mc', pqr, ok⟩ := rest2
    rw [hres] at h
    refine ⟨h.1, h.2.1, ?_, h.2.2.2, ?_, ?_⟩
    · intro hok
      rcases h.2.2.1 hok with hh | hh
      · exact Or.inl hh
      · exact Or.inr (le_antisymm h.2.1 hh)
    · intro hlen
      simp only [BMSSP.base_bmssp, hres]
      rw [if_pos hlen]
    · intro hlen
      simp only [BMSSP.base_bmssp, hres]
      rw [if_neg (not_le.mpr hlen)]

/-- Witness for `c4_base_bmssp_spec` on the concrete graph `cexAdj` with
`B = ⊤`, `s = 3`, `k = 2`: three nodes are settled (`k + 1 = 3`, distinct),
so the over-budget branch applies. -/
theorem c4_base_bmssp_spec_witness :
    (BMSSP.baseLoop BMSSP.cexAdj (⊤ : WithTop ℕ) 2 20
        [(BMSSP.mcGet (BMSSP.initMC ℕ 8 3) 3, 3)] []
        (BMSSP.mcGet (BMSSP.initMC ℕ 8 3) 3) (BMSSP.initMC ℕ 8 3)).1.Nodup ∧
    2 < (BMSSP.baseLoop BMSSP.cexAdj (⊤ : WithTop ℕ) 2 20
        [(BMSSP.mcGet (BMSSP.initMC ℕ 8 3) 3, 3)] []
        (BMSSP.mcGet (BMSSP.initMC ℕ 8 3) 3) (BMSSP.initMC ℕ 8 3)).1.length ∧
    BMSSP.base_bmssp (⊤ : WithTop ℕ) 3 2 BMSSP.cexAdj (BMSSP.initMC ℕ 8 3) 20 =
      ((BMSSP.baseLoop BMSSP.cexAdj (⊤ : WithTop ℕ) 2 20
          [(BMSSP.mcGet (BMSSP.initMC ℕ 8 3) 3, 3)] []
          (BMSSP.mcGet (BMSSP.initMC ℕ 8 3) 3) (BMSSP.initMC ℕ 8 3)).2.1,
        ((BMSSP.baseLoop BMSSP.cexAdj (⊤ : WithTop ℕ) 2 20
          [(BMSSP.mcGet (BMSSP.initMC ℕ 8 3) 3, 3)] []
          (BMSSP.mcGet (BMSSP.initMC ℕ 8 3) 3) (BMSSP.initMC ℕ 8 3)).1).filter
          (fun v => BMSSP.mcGet (BMSSP.baseLoop BMSSP.cexAdj (⊤ : WithTop ℕ) 2 20
            [(BMSSP.mcGet (BMSSP.initMC ℕ 8 3) 3, 3)] []
            (BMSSP.mcGet (BMSSP.initMC ℕ 8 3) 3) (BMSSP.initMC ℕ 8 3)).2.2.1 v <
            (BMSSP.baseLoop BMSSP.cexAdj (⊤ : WithTop ℕ) 2 20
              [(BMSSP.mcGet (BMSSP.initMC ℕ 8 3) 3, 3)] []
              (BMSSP.mcGet (BMSSP.initMC ℕ 8 3) 3) (BMSSP.initMC ℕ 8 3)).2.1),
        (BMSSP.baseLoop BMSSP.cexAdj (⊤ : WithTop ℕ) 2 20
          [(BMSSP.mcGet (BMSSP.initMC ℕ 8 3) 3, 3)] []
          (BMSSP.mcGet (BMSSP.initMC ℕ 8 3) 3) (BMSSP.initMC ℕ 8 3)).2.2.1,
        (BMSSP.baseLoop BMSSP.cexAdj (⊤ : WithTop ℕ) 2 20
          [(BMSSP.mcGet (BMSSP.initMC ℕ 8 3) 3, 3)] []
          (BMSSP.mcGet (BMSSP.initMC ℕ 8 3) 3) (BMSSP.initMC ℕ 8 3)).2.2.2.2) :=
  ⟨(c4_base_bmssp_spec (⊤ : WithTop ℕ) 3 2 BMSSP.cexAdj (BMSSP.initMC ℕ 8 3) 20).1,
   by decide,
   (c4_base_bmssp_spec (⊤ : WithTop ℕ) 3 2 BMSSP.cexAdj (BMSSP.initMC ℕ 8 3)
     20).2.2.2.2.2 (by decide)⟩

namespace BMSSP

variable {α : Type} [LinearOrderedAddCommMonoid α]

theorem foldl_add_init (g : Nat → Nat) :
    ∀ (l : List Nat) (init : Nat),
      l.foldl (fun n lf => n + g lf) init = init + l.foldl (fun n lf => n + g lf) 0 := by
  intro l
  induction l with
  | nil => intro init; simp
  | cons a rest ih =>
    intro init
    rw [List.foldl_cons, List.foldl_cons, ih (init + g a), ih (0 + g a)]
    omega

theorem totalCount_cons (bp : List (Nat × Nat)) (leaf : Nat) (rest : List Nat)
    (r : Nat) :
    totalCount bp (leaf :: rest) r =
      (if (leafWalk bp leaf).1 = r then (leafWalk bp leaf).2.1 else 0) +
        totalCount bp rest r := by
  rw [totalCount, totalCount]
  by_cases h : (leafWalk bp leaf).1 = r
  · rw [if_pos h]
    rw [List.filter_cons_of_pos (by simpa using h)]
    rw [List.foldl_cons]
    rw [foldl_add_init]
    omega
  · rw [if_neg h]
    rw [List.filter_cons_of_neg (by simpa using h)]
    omega

theorem totalCount_pos_mem (bp : List (Nat × Nat)) (r : Nat) :
    ∀ (leaves : List Nat), 0 < totalCount bp leaves r →
      r ∈ leaves.map (fun lf => (leafWalk bp lf).1) := by
  intro leaves
  induction leaves with
  | nil => intro h; simp [totalCount] at h
  | cons leaf rest ih =>
    intro h
    rw [totalCount_cons] at h
    rw [List.map_cons]
    by_cases hr : (leafWalk bp leaf).1 = r
    · rw [hr]
      exact List.mem_cons_self _ _
    · rw [if_neg hr] at h
      exact List.mem_cons_of_mem _ (ih (by omega))

theorem mem_if_append_self (piv : List Nat) (b : Bool) (r : Nat) :
    (r ∈ (if b = true then piv ++ [r] else piv)) ↔ (r ∈ piv ∨ b = true) := by
  cases b
  · simp
  · simp

theorem mem_if_append_ne (piv : List Nat) (b : Bool) (root r : Nat)
    (h : r ≠ root) :
    (r ∈ (if b = true then piv ++ [root] else piv)) ↔ r ∈ piv := by
  cases b
  · simp
  · simp [h]

theorem pivotLoop_mem (bp : List (Nat × Nat)) (k : Nat) :
    ∀ (leaves : List Nat) (ts : List (Nat × Nat)) (piv : List Nat) (ok : Bool)
      (r : Nat),
      r ∈ (pivotLoop bp k leaves ts piv ok).1 ↔
        r ∈ piv ∨ (r ∈ leaves.map (fun lf => (leafWalk bp lf).1) ∧
          k ≤ (ts.lookup r).getD 0 + totalCount bp leaves r) := by
  intro leaves
  induction leaves with
  | nil =>
    intro ts piv ok r
    rw [pivotLoop]
    simp [totalCount]
  | cons leaf rest ih =>
    intro ts piv ok r
    rw [pivotLoop]
    cases hw : walk bp (bp.length + 1) leaf 0 with
    | mk root rest2 =>
      obtain ⟨cnt, wok⟩ := rest2
      dsimp only
      have hwroot : (leafWalk bp leaf).1 = root := by rw [leafWalk, hw]
      have hwcnt : (leafWalk bp leaf).2.1 = cnt := by rw [leafWalk, hw]
      rw [ih]
      rw [List.map_cons, totalCount_cons, hwroot, hwcnt]
      by_cases hr : r = root
      · subst hr
        rw [alSet_lookup_self, mem_if_append_self, if_pos rfl]
        simp only [Option.getD_some, List.mem_cons, true_or, true_and]
        constructor
        · intro h
          rcases h with (h | h) | h
          · exact Or.inl h
          · rw [Bool.and_eq_true, decide_eq_true_eq] at h
            exact Or.inr (by omega)
          · exact Or.inr (by omega)
        · intro h
          rcases h with h | h
          · exact Or.inl (Or.inl h)
          · by_cases hp : r ∈ piv
            · exact Or.inl (Or.inl hp)
            · by_cases htc : 0 < totalCount bp rest r
              · exact Or.inr ⟨totalCount_pos_mem bp r rest htc, by omega⟩
              · refine Or.inl (Or.inr ?_)
                rw [Bool.and_eq_true, decide_eq_true_eq]
                exact ⟨by omega, by simpa using hp⟩
      · rw [alSet_lookup_ne _ _ _ _ hr, mem_if_append_ne _ _ _ _ hr,
          if_neg (fun hh => hr hh.symm)]
        simp only [List.mem_cons]
        constructor
        · intro h
          rcases h with h | h
          · exact Or.inl h
          · exact Or.inr ⟨Or.inr h.1, by omega⟩
        · intro h
          rcases h with h | h
          · exact Or.inl h
          · rcases h.1 with hh | hh
            · exact absurd hh hr
            · exact Or.inr ⟨hh, by omega⟩

/-- C5: `find_pivots` performs at most `k` rounds of layered relaxation; on
short-circuit (accumulated set exceeds `k * |frontier|`) it returns the
frontier as pivots together with the accumulated visited set; otherwise it
returns the accumulated visited set and exactly those roots whose
accumulated parent-walk length counts over last-layer leaves reach `k`. -/
theorem c5_find_pivots_spec {α : Type} [LinearOrderedAddCommMonoid α]
    (bound : WithTop α) (frontier : List Nat) (k : Nat) (adj : Graph α)
    (mc : List (WithTop α)) :
    (∀ allL lastL mc2 bp,
        fpRounds bound adj k frontier k frontier frontier mc [] =
          (allL, lastL, mc2, bp, true) →
        find_pivots bound frontier k adj mc = (frontier, allL, mc2, true)) ∧
    (∀ allL lastL mc2 bp,
        fpRounds bound adj k frontier k frontier frontier mc [] =
          (allL, lastL, mc2, bp, false) →
        (find_pivots bound frontier k adj mc).2.1 = allL ∧
        (find_pivots bound frontier k adj mc).2.2.1 = mc2 ∧
        ∀ r, r ∈ (find_pivots bound frontier k adj mc).1 ↔
          (r ∈ lastL.map (fun lf => (leafWalk bp lf).1) ∧
            k ≤ totalCount bp lastL r)) := by
  constructor
  · intro allL lastL mc2 bp hres
    simp [find_pivots, hres]
  · intro allL lastL mc2 bp hres
    cases hpl : pivotLoop bp k lastL [] [] true with
    | mk piv ok =>
      have hfp : find_pivots bound frontier k adj mc = (piv, allL, mc2, ok) := by
        simp [find_pivots, hres, hpl]
      rw [hfp]
      refine ⟨rfl, rfl, ?_⟩
      intro r
      have hm := pivotLoop_mem bp k lastL [] [] true r
      rw [hpl] at hm
      simpa using hm

/-- Witness for `c5_find_pivots_spec`: both branches at concrete graphs —
a path `0 → 1 → 2 → 3` from frontier `[0]` short-circuits after round 2,
and the graph `0 → 1 → 2` with frontier `[0, 3]` runs the full `k = 2`
rounds and elects root `0` (accumulated walk count 2) as a pivot. -/
theorem c5_find_pivots_spec_witness :
    find_pivots (⊤ : WithTop ℕ) [0] 2 [[⟨1, 0⟩], [⟨2, 0⟩], [⟨3, 0⟩], []]
        [0, ⊤, ⊤, ⊤] = ([0], [0, 1, 2], [0, 0, 0, ⊤], true) ∧
    (find_pivots (⊤ : WithTop ℕ) [0, 3] 2 [[⟨1, 0⟩], [⟨2, 0⟩], [], []]
        [0, ⊤, ⊤, 0]).2.1 = [0, 3, 1, 2] ∧
    0 ∈ (find_pivots (⊤ : WithTop ℕ) [0, 3] 2 [[⟨1, 0⟩], [⟨2, 0⟩], [], []]
        [0, ⊤, ⊤, 0]).1 := by
  constructor
  · exact (c5_find_pivots_spec (⊤ : WithTop ℕ) [0] 2
      [[⟨1, 0⟩], [⟨2, 0⟩], [⟨3, 0⟩], []] [0, ⊤, ⊤, ⊤]).1
      [0, 1, 2] [2] [0, 0, 0, ⊤] [(1, 0), (2, 1)] (by decide)
  · have h := (c5_find_pivots_spec (⊤ : WithTop ℕ) [0, 3] 2
      [[⟨1, 0⟩], [⟨2, 0⟩], [], []] [0, ⊤, ⊤, 0]).2
      [0, 3, 1, 2] [2] [0, 0, 0, 0] [(1, 0), (2, 1)] (by decide)
    exact ⟨h.1, (h.2.2 0).mpr (by decide)⟩

end BMSSP

namespace BL

open BMSSP (alSet alErase lookup_cons_self lookup_cons_ne alSet_lookup_self alSet_lookup_ne)

variable {α : Type} [LinearOrderedAddCommMonoid α]

theorem countIn_nil (u : Nat) : countIn ([] : List (Block α)) u = 0 := rfl

theorem countIn_foldl_init (u : Nat) (blocks : List (Block α)) :
    ∀ a : Nat,
      blocks.foldl (fun n b => n + b.elements.countP (fun x => decide (x.1 = u))) a =
        a + blocks.foldl (fun n b => n + b.elements.countP (fun x => decide (x.1 = u))) 0 := by
  induction blocks with
  | nil => intro a; simp
  | cons b rest ih =>
    intro a
    rw [List.foldl_cons, List.foldl_cons,
      ih (a + b.elements.countP (fun x => decide (x.1 = u))),
      ih (0 + b.elements.countP (fun x => decide (x.1 = u)))]
    omega

theorem countIn_cons (b : Block α) (rest : List (Block α)) (u : Nat) :
    countIn (b :: rest) u =
      b.elements.countP (fun x => decide (x.1 = u)) + countIn rest u := by
  unfold countIn
  rw [List.foldl_cons, countIn_foldl_init]
  omega

theorem countIn_append (bs cs : List (Block α)) (u : Nat) :
    countIn (bs ++ cs) u = countIn bs u + countIn cs u := by
  induction bs with
  | nil => rw [List.nil_append, countIn_nil]; omega
  | cons b rest ih =>
    rw [List.cons_append, countIn_cons, ih, countIn_cons]
    omega

theorem countP_block_eq_zero {blocks : List (Block α)} {u : Nat}
    (h : countIn blocks u = 0) {b : Block α} (hb : b ∈ blocks) :
    b.elements.countP (fun x => decide (x.1 = u)) = 0 := by
  induction blocks with
  | nil => cases hb
  | cons c rest ih =>
    rw [countIn_cons] at h
    rcases List.mem_cons.mp hb with hb | hb
    · subst hb; omega
    · exact ih (by omega) hb

theorem countP_pos_of_lookup_some {β : Type} {l : List (Nat × β)} {u : Nat} {v : β}
    (h : l.lookup u = some v) : 0 < l.countP (fun x => decide (x.1 = u)) := by
  induction l with
  | nil => simp [List.lookup] at h
  | cons p rest ih =>
    obtain ⟨k, w⟩ := p
    rw [List.countP_cons]
    by_cases hk : k = u
    · simp [hk]
    · rw [lookup_cons_ne (fun hh => hk hh.symm)] at h
      have := ih h
      omega

theorem countP_eq_zero_of_lookup_none {β : Type} {l : List (Nat × β)} {u : Nat}
    (h : l.lookup u = none) : l.countP (fun x => decide (x.1 = u)) = 0 := by
  induction l with
  | nil => simp
  | cons p rest ih =>
    obtain ⟨k, w⟩ := p
    rw [List.countP_cons]
    by_cases hk : k = u
    · subst hk; rw [lookup_cons_self] at h; cases h
    · rw [lookup_cons_ne (fun hh => hk hh.symm)] at h
      have := ih h
      simp [hk, this]

theorem mem_of_lookup_some {β : Type} {l : List (Nat × β)} {u : Nat} {v : β}
    (h : l.lookup u = some v) : (u, v) ∈ l := by
  induction l with
  | nil => simp [List.lookup] at h
  | cons p rest ih =>
    obtain ⟨k, w⟩ := p
    by_cases hk : k = u
    · subst hk
      rw [lookup_cons_self] at h
      injection h with h
      subst h
      exact List.mem_cons_self _ _
    · rw [lookup_cons_ne (fun hh => hk hh.symm)] at h
      exact List.mem_cons_of_mem _ (ih h)

theorem lookup_eq_none_of_not_mem_keys {β : Type} {l : List (Nat × β)} {u : Nat}
    (h : u ∉ l.map Prod.fst) : l.lookup u = none := by
  induction l with
  | nil => rfl
  | cons p rest ih =>
    obtain ⟨k, w⟩ := p
    rw [List.map_cons, List.mem_cons] at h
    push_neg at h
    rw [lookup_cons_ne h.1]
    exact ih h.2

theorem alErase_lookup_self {β : Type} {l : List (Nat × β)} {u : Nat}
    (h : (l.map Prod.fst).Nodup) : (alErase l u).lookup u = none := by
  induction l with
  | nil => rfl
  | cons p rest ih =>
    obtain ⟨k, w⟩ := p
    rw [List.map_cons, List.nodup_cons] at h
    by_cases hk : k = u
    · subst hk
      simp only [alErase, eq_self_iff_true, ite_true]
      exact lookup_eq_none_of_not_mem_keys h.1
    · simp only [alErase, if_neg hk]
      rw [lookup_cons_ne (fun hh => hk hh.symm)]
      exact ih h.2

theorem countP_elemErase {l : List (Nat × WithTop α)} {u : Nat} {v : WithTop α}
    (h : l.lookup u = some v) :
    (elemErase u l).countP (fun x => decide (x.1 = u)) =
      l.countP (fun x => decide (x.1 = u)) - 1 := by
  induction l with
  | nil => simp [List.lookup] at h
  | cons p rest ih =>
    obtain ⟨k, w⟩ := p
    by_cases hk : k = u
    · subst hk
      simp only [elemErase, eq_self_iff_true, ite_true]
      rw [List.countP_cons]
      simp
    · rw [lookup_cons_ne (fun hh => hk hh.symm)] at h
      simp only [elemErase, if_neg hk]
      rw [List.countP_cons, List.countP_cons, ih h]
      have := countP_pos_of_lookup_some h
      simp only [hk, decide_False]
      omega

theorem countIn_removeFromBlocks {u : Nat} :
    ∀ {blocks : List (Block α)}, countIn blocks u = 1 →
      countIn (removeFromBlocks u blocks).1 u = 0 := by
  intro blocks
  induction blocks with
  | nil => intro h; rw [countIn_nil] at h; omega
  | cons b rest ih =>
    intro h
    rw [countIn_cons] at h
    rw [removeFromBlocks.eq_def]
    dsimp only
    by_cases hl : (b.elements.lookup u).isSome = true
    · rw [if_pos hl]
      obtain ⟨v, hv⟩ := Option.isSome_iff_exists.mp hl
      have hpos := countP_pos_of_lookup_some hv
      have herase := countP_elemErase hv
      cases he : elemErase u b.elements with
      | nil =>
        rw [he] at herase
        simp only [List.countP_nil] at herase
        dsimp only
        omega
      | cons e etail =>
        rw [he] at herase
        dsimp only
        rw [countIn_cons]
        dsimp only
        omega
    · rw [if_neg hl]
      have hnone : b.elements.lookup u = none := by
        cases hx : b.elements.lookup u with
        | none => rfl
        | some v => rw [hx] at hl; simp at hl
      have hzero := countP_eq_zero_of_lookup_none hnone
      cases hrec : removeFromBlocks u rest with
      | mk rest2 key =>
        dsimp only
        rw [countIn_cons]
        have hr := ih (by omega)
        rw [hrec] at hr
        dsimp only at hr
        omega

theorem removeExisting_spec {s : BlockList α} {u : Nat} {tag : ListType}
    {d : WithTop α}
    (hnd : (s.locator.map Prod.fst).Nodup)
    (hcnt : match tag with
            | LIST_D0 => countIn s.D0 u = 1 ∧ countIn s.D1 u = 0
            | LIST_D1 => countIn s.D1 u = 1 ∧ countIn s.D0 u = 0) :
    countIn (removeExisting s u tag).D0 u = 0 ∧
    countIn (removeExisting s u tag).D1 u = 0 ∧
    (removeExisting s u tag).locator.lookup u = none := by
  cases tag with
  | LIST_D1 =>
    obtain ⟨h1, h0⟩ := hcnt
    rw [removeExisting]
    cases hrec : removeFromBlocks u s.D1 with
    | mk d1r key =>
      have hr := countIn_removeFromBlocks h1
      rw [hrec] at hr
      cases key with
      | none =>
        dsimp only
        exact ⟨h0, hr, alErase_lookup_self hnd⟩
      | some k =>
        dsimp only
        exact ⟨h0, hr, alErase_lookup_self hnd⟩
  | LIST_D0 =>
    obtain ⟨h0, h1⟩ := hcnt
    rw [removeExisting]
    cases hrec : removeFromBlocks u s.D0 with
    | mk d0r key =>
      have hr := countIn_removeFromBlocks h0
      rw [hrec] at hr
      dsimp only
      exact ⟨hr, h1, alErase_lookup_self hnd⟩

theorem countP_sortedInsertBy {β : Type} (key : β → WithTop α) (x : β)
    (p : β → Bool) :
    ∀ l : List β, (sortedInsertBy key x l).countP p = ((x :: l).countP p) := by
  intro l
  induction l with
  | nil => rfl
  | cons y rest ih =>
    rw [sortedInsertBy]
    by_cases hc : key x < key y
    · rw [if_pos hc]
    · rw [if_neg hc, List.countP_cons, ih, List.countP_cons, List.countP_cons,
        List.countP_cons]
      omega

theorem countP_sortBy {β : Type} (key : β → WithTop α) (p : β → Bool)
    (l : List β) : (sortBy key l).countP p = l.countP p := by
  induction l with
  | nil => rfl
  | cons y rest ih =>
    have hs : sortBy key (y :: rest) = sortedInsertBy key y (sortBy key rest) := rfl
    rw [hs, countP_sortedInsertBy, List.countP_cons, List.countP_cons, ih]

theorem mem_sortedInsertBy {β : Type} (key : β → WithTop α) (x y : β) :
    ∀ l : List β, y ∈ sortedInsertBy key x l → y = x ∨ y ∈ l := by
  intro l
  induction l with
  | nil => intro h; simpa [sortedInsertBy] using h
  | cons z rest ih =>
    intro h
    rw [sortedInsertBy] at h
    by_cases hc : key x < key z
    · rw [if_pos hc] at h
      rw [List.mem_cons, List.mem_cons] at h
      rcases h with h | h | h
      · exact Or.inl h
      · exact Or.inr (h ▸ List.mem_cons_self _ _)
      · exact Or.inr (List.mem_cons_of_mem _ h)
    · rw [if_neg hc] at h
      rw [List.mem_cons] at h
      rcases h with h | h
      · exact Or.inr (h ▸ List.mem_cons_self _ _)
      · rcases ih h with h | h
        · exact Or.inl h
        · exact Or.inr (List.mem_cons_of_mem _ h)

theorem mem_sortBy {β : Type} (key : β → WithTop α) (y : β) :
    ∀ l : List β, y ∈ sortBy key l → y ∈ l := by
  intro l
  induction l with
  | nil => intro h; exact h
  | cons z rest ih =>
    intro h
    have hs : sortBy key (z :: rest) = sortedInsertBy key z (sortBy key rest) := rfl
    rw [hs] at h
    rcases mem_sortedInsertBy key z y _ h with h | h
    · exact h ▸ List.mem_cons_self _ _
    · exact List.mem_cons_of_mem _ (ih h)

theorem length_sortedInsertBy {β : Type} (key : β → WithTop α) (x : β) :
    ∀ l : List β, (sortedInsertBy key x l).length = l.length + 1 := by
  intro l
  induction l with
  | nil => rfl
  | cons y rest ih =>
    rw [sortedInsertBy]
    by_cases hc : key x < key y
    · rw [if_pos hc]; simp
    · rw [if_neg hc, List.length_cons, ih]; simp

theorem length_sortBy {β : Type} (key : β → WithTop α) :
    ∀ l : List β, (sortBy key l).length = l.length := by
  intro l
  induction l with
  | nil => rfl
  | cons y rest ih =>
    have hs : sortBy key (y :: rest) = sortedInsertBy key y (sortBy key rest) := rfl
    rw [hs, length_sortedInsertBy, ih, List.length_cons]

theorem lookup_foldl_alSet (u : Nat) (d : WithTop α) :
    ∀ (els : List (Nat × WithTop α)) (L : List (Nat × (ListType × WithTop α))),
      L.lookup u = some (LIST_D1, d) →
      (∀ x ∈ els, x.1 = u → x.2 = d) →
      (els.foldl (fun L x => alSet L x.1 (LIST_D1, x.2)) L).lookup u =
        some (LIST_D1, d) := by
  intro els
  induction els with
  | nil => intro L hL _; exact hL
  | cons x rest ih =>
    intro L hL hall
    rw [List.foldl_cons]
    apply ih
    · by_cases hx : x.1 = u
      · have hv : x.2 = d := hall x (List.mem_cons_self _ _) hx
        rw [hx, hv]
        exact alSet_lookup_self L u (LIST_D1, d)
      · rw [alSet_lookup_ne L x.1 u _ (fun hh => hx hh.symm)]
        exact hL
    · intro y hy hyu
      exact hall y (List.mem_cons_of_mem _ hy) hyu

end BL

namespace BL

open BMSSP (alSet alErase lookup_cons_self lookup_cons_ne alSet_lookup_self alSet_lookup_ne)

variable {α : Type} [LinearOrderedAddCommMonoid α]

theorem getLastD_mem {β : Type} :
    ∀ (l : List β) (dflt : β), l ≠ [] → l.getLastD dflt ∈ l := by
  intro l
  induction l with
  | nil => intro dflt h; exact absurd rfl h
  | cons x rest ih =>
    intro dflt _
    rw [List.getLastD_cons]
    cases hr : rest with
    | nil => subst hr; simp
    | cons y t =>
      subst hr
      exact List.mem_cons_of_mem _ (ih x (by simp))

theorem insertFresh_eq_core (s : BlockList α) (u : Nat) (d : WithTop α) :
    insertFresh s u d = insertCore (lazyD1 s) u d := rfl

theorem routeBlock_mem (s₁ : BlockList α) (d : WithTop α) (hne : s₁.D1 ≠ []) :
    routeBlock s₁ d ∈ s₁.D1 := by
  rw [routeBlock]
  cases hlb : idxLowerBound s₁.D1_Index d with
  | none => exact getLastD_mem _ _ hne
  | some key =>
    dsimp only
    cases hf : s₁.D1.find?
        (fun (b : Block α) => b.upper_bound = key.1 && b.id = key.2) with
    | none => exact getLastD_mem _ _ hne
    | some b => exact List.mem_of_find?_eq_some hf

theorem lazyD1_D0 (s : BlockList α) : (lazyD1 s).D0 = s.D0 := by
  rw [lazyD1]; split <;> rfl

theorem lazyD1_locator (s : BlockList α) : (lazyD1 s).locator = s.locator := by
  rw [lazyD1]; split <;> rfl

theorem lazyD1_count (s : BlockList α) (u : Nat) (h : countIn s.D1 u = 0) :
    countIn (lazyD1 s).D1 u = 0 := by
  rw [lazyD1]
  by_cases hD : s.D1.isEmpty = true
  · rw [if_pos hD]
    dsimp only
    rw [countIn_cons, countIn_nil]
    simp
  · rw [if_neg hD]
    exact h

theorem lazyD1_ne (s : BlockList α) : (lazyD1 s).D1 ≠ [] := by
  rw [lazyD1]
  by_cases hD : s.D1.isEmpty = true
  · rw [if_pos hD]; simp
  · rw [if_neg hD]
    intro hh
    exact hD (by rw [hh]; rfl)

theorem countIn_replaceBlock (bid : ℤ) (new : List (Block α)) (u : Nat) :
    ∀ blocks : List (Block α), countIn blocks u = 0 →
      (∃ b ∈ blocks, b.id = bid) →
      countIn (replaceBlock bid new blocks) u = countIn new u := by
  intro blocks
  induction blocks with
  | nil =>
    intro _ h
    obtain ⟨b, hb, _⟩ := h
    cases hb
  | cons b rest ih =>
    intro hz hex
    rw [countIn_cons] at hz
    simp only [replaceBlock]
    by_cases hid : b.id = bid
    · rw [if_pos hid, countIn_append]
      omega
    · rw [if_neg hid, countIn_cons]
      obtain ⟨c, hc, hcid⟩ := hex
      rcases List.mem_cons.mp hc with hc | hc
      · subst hc; exact absurd hcid hid
      · rw [ih (by omega) ⟨c, hc, hcid⟩]
        omega

theorem mem_replaceBlock (bid : ℤ) (new : List (Block α)) :
    ∀ (blocks : List (Block α)) (c : Block α), c ∈ replaceBlock bid new blocks →
      c ∈ new ∨ c ∈ blocks := by
  intro blocks
  induction blocks with
  | nil =>
    intro c h
    simp only [replaceBlock] at h
    cases h
  | cons b rest ih =>
    intro c h
    simp only [replaceBlock] at h
    by_cases hid : b.id = bid
    · rw [if_pos hid] at h
      rcases List.mem_append.mp h with h | h
      · exact Or.inl h
      · exact Or.inr (List.mem_cons_of_mem _ h)
    · rw [if_neg hid] at h
      rcases List.mem_cons.mp h with h | h
      · exact Or.inr (h ▸ List.mem_cons_self _ _)
      · rcases ih c h with h | h
        · exact Or.inl h
        · exact Or.inr (List.mem_cons_of_mem _ h)

theorem split_block_d1_spec (nbid : ℤ) (b : Block α) (u : Nat)
    (hne : b.elements ≠ []) :
    (split_block_d1 nbid b).1.elements.countP (fun x => decide (x.1 = u)) +
      (split_block_d1 nbid b).2.elements.countP (fun x => decide (x.1 = u)) =
      b.elements.countP (fun x => decide (x.1 = u)) ∧
    (∀ x ∈ (split_block_d1 nbid b).1.elements, x ∈ b.elements) ∧
    (∀ x ∈ (split_block_d1 nbid b).2.elements, x ∈ b.elements) := by
  cases hs : sortBy (Prod.snd) b.elements with
  | nil =>
    exfalso
    have hl := length_sortBy (Prod.snd : Nat × WithTop α → WithTop α) b.elements
    rw [hs] at hl
    cases hb : b.elements with
    | nil => exact hne hb
    | cons e t => rw [hb] at hl; simp at hl
  | cons e0 etail =>
    have h1 : (split_block_d1 nbid b).1.elements =
        (e0 :: etail).take ((e0 :: etail).length / 2) := by
      simp only [split_block_d1, hs]
    have h2 : (split_block_d1 nbid b).2.elements =
        (e0 :: etail).drop ((e0 :: etail).length / 2) := by
      simp only [split_block_d1, hs]
    rw [h1, h2]
    refine ⟨?_, ?_, ?_⟩
    · rw [← List.countP_append, List.take_append_drop, ← hs, countP_sortBy]
    · intro x hx
      apply mem_sortBy (Prod.snd) x b.elements
      rw [hs]
      exact List.take_subset _ _ hx
    · intro x hx
      apply mem_sortBy (Prod.snd) x b.elements
      rw [hs]
      exact List.drop_subset _ _ hx

theorem insertCore_spec (s₁ : BlockList α) (u : Nat) (d : WithTop α)
    (h0 : countIn s₁.D0 u = 0) (h1 : countIn s₁.D1 u = 0) (hne : s₁.D1 ≠ []) :
    countIn (insertCore s₁ u d).D0 u = 0 ∧
    countIn (insertCore s₁ u d).D1 u = 1 ∧
    (∀ b ∈ (insertCore s₁ u d).D1, ∀ x ∈ b.elements, x.1 = u → x.2 = d) ∧
    (insertCore s₁ u d).locator.lookup u = some (LIST_D1, d) := by
  have htb : routeBlock s₁ d ∈ s₁.D1 := routeBlock_mem s₁ d hne
  have htb0 : (routeBlock s₁ d).elements.countP (fun x => decide (x.1 = u)) = 0 :=
    countP_block_eq_zero h1 htb
  have hgcnt :
      ((routeBlock s₁ d).elements ++ [(u, d)]).countP (fun x => decide (x.1 = u)) = 1 := by
    rw [List.countP_append, htb0]
    simp
  have hgval : ∀ x ∈ (routeBlock s₁ d).elements ++ [(u, d)], x.1 = u → x.2 = d := by
    intro x hx hxu
    rcases List.mem_append.mp hx with hx | hx
    · have hz := List.countP_eq_zero.mp htb0 x hx
      simp [hxu] at hz
    · rw [List.mem_singleton] at hx
      rw [hx]
  have hid : ∃ b ∈ s₁.D1, b.id = (routeBlock s₁ d).id := ⟨_, htb, rfl⟩
  rw [insertCore]
  by_cases hM : s₁.M < ((routeBlock s₁ d).elements ++ [(u, d)]).length
  · rw [if_pos hM]
    cases hsp : split_block_d1 s₁.next_block_id
        { routeBlock s₁ d with elements := (routeBlock s₁ d).elements ++ [(u, d)] } with
    | mk bl br =>
      have hsplit := split_block_d1_spec s₁.next_block_id
        { routeBlock s₁ d with elements := (routeBlock s₁ d).elements ++ [(u, d)] } u
        (by simp)
      rw [hsp] at hsplit
      obtain ⟨hcnt, hmem1, hmem2⟩ := hsplit
      dsimp only at hcnt hmem1 hmem2 ⊢
      refine ⟨h0, ?_, ?_, ?_⟩
      · rw [countIn_replaceBlock _ _ _ _ h1 hid, countIn_cons, countIn_cons,
          countIn_nil]
        omega
      · intro b hb x hx hxu
        rcases mem_replaceBlock _ _ _ _ hb with hb | hb
        · rcases List.mem_cons.mp hb with hb | hb
          · subst hb; exact hgval x (hmem1 x hx) hxu
          · rw [List.mem_singleton] at hb
            subst hb; exact hgval x (hmem2 x hx) hxu
        · have hz := List.countP_eq_zero.mp (countP_block_eq_zero h1 hb) x hx
          simp [hxu] at hz
      · apply lookup_foldl_alSet
        · apply lookup_foldl_alSet
          · exact alSet_lookup_self _ _ _
          · intro y hy hyu
            exact hgval y (hmem1 y hy) hyu
        · intro y hy hyu
          exact hgval y (hmem2 y hy) hyu
  · rw [if_neg hM]
    dsimp only
    refine ⟨h0, ?_, ?_, alSet_lookup_self _ _ _⟩
    · rw [countIn_replaceBlock _ _ _ _ h1 hid, countIn_cons, countIn_nil]
      dsimp only
      omega
    · intro b hb x hx hxu
      rcases mem_replaceBlock _ _ _ _ hb with hb | hb
      · rw [List.mem_singleton] at hb
        subst hb
        exact hgval x hx hxu
      · have hz := List.countP_eq_zero.mp (countP_block_eq_zero h1 hb) x hx
        simp [hxu] at hz

theorem insertFresh_spec (s : BlockList α) (u : Nat) (d : WithTop α)
    (h0 : countIn s.D0 u = 0) (h1 : countIn s.D1 u = 0) :
    countIn (insertFresh s u d).D0 u = 0 ∧
    countIn (insertFresh s u d).D1 u = 1 ∧
    (∀ b ∈ (insertFresh s u d).D1, ∀ x ∈ b.elements, x.1 = u → x.2 = d) ∧
    (insertFresh s u d).locator.lookup u = some (LIST_D1, d) := by
  rw [insertFresh_eq_core]
  refine insertCore_spec (lazyD1 s) u d ?_ (lazyD1_count s u h1) (lazyD1_ne s)
  rw [lazyD1_D0]
  exact h0

theorem wfB_extract {s : BlockList α} (hwf : wfB s = true) :
    (s.locator.map Prod.fst).Nodup ∧
    ∀ p ∈ s.locator,
      match p.2.1 with
      | LIST_D0 => countIn s.D0 p.1 = 1 ∧ countIn s.D1 p.1 = 0
      | LIST_D1 => countIn s.D1 p.1 = 1 ∧ countIn s.D0 p.1 = 0 := by
  rw [wfB, Bool.and_eq_true, Bool.and_eq_true, Bool.and_eq_true] at hwf
  obtain ⟨⟨⟨hnd, hall⟩, _⟩, _⟩ := hwf
  constructor
  · exact of_decide_eq_true hnd
  · intro p hp
    have hb := List.all_eq_true.mp hall p hp
    obtain ⟨pu, ptag, pd⟩ := p
    cases ptag with
    | LIST_D0 =>
      dsimp only at hb ⊢
      rw [Bool.and_eq_true, Bool.and_eq_true] at hb
      exact ⟨of_decide_eq_true hb.1.1, of_decide_eq_true hb.2⟩
    | LIST_D1 =>
      dsimp only at hb ⊢
      rw [Bool.and_eq_true, Bool.and_eq_true] at hb
      exact ⟨of_decide_eq_true hb.1.1, of_decide_eq_true hb.2⟩

end BL

/-- C3: on a well-formed partitioned BlockList holding `u` with value
`d1`, `insert(u, d2)` with `d1 ≤ d2` leaves the structure unchanged, and
with `d2 < d1` it leaves `u` stored exactly once — in `D1`, with value
exactly `d2`, and with a matching locator entry. -/
theorem c3_insert_dedup {α : Type} [LinearOrderedAddCommMonoid α]
    (s : BL.BlockList α) (u : Nat) (tag : BL.ListType) (d1 d2 : WithTop α)
    (hwf : BL.wfB s = true) (hloc : s.locator.lookup u = some (tag, d1)) :
    (d1 ≤ d2 → BL.insert s u d2 = s) ∧
    (d2 < d1 →
      BL.countIn (BL.insert s u d2).D0 u = 0 ∧
      BL.countIn (BL.insert s u d2).D1 u = 1 ∧
      (∀ b ∈ (BL.insert s u d2).D1, ∀ x ∈ b.elements, x.1 = u → x.2 = d2) ∧
      (BL.insert s u d2).locator.lookup u = some (BL.LIST_D1, d2)) := by
  constructor
  · intro hle
    simp only [BL.insert, hloc]
    rw [if_pos hle]
  · intro hlt
    have hnle : ¬ d1 ≤ d2 := not_le.mpr hlt
    have hres : BL.insert s u d2 = BL.insertFresh (BL.removeExisting s u tag) u d2 := by
      simp only [BL.insert, hloc]
      rw [if_neg hnle]
    rw [hres]
    obtain ⟨hnd, hall⟩ := BL.wfB_extract hwf
    have hp := hall (u, (tag, d1)) (BL.mem_of_lookup_some hloc)
    have hrem := @BL.removeExisting_spec α _ s u tag d1 hnd hp
    obtain ⟨hr0, hr1, _⟩ := hrem
    exact BL.insertFresh_spec _ u d2 hr0 hr1

/-- Witness for `c3_insert_dedup` on `BlockList(1, 100)` holding `(1, 59)`:
re-inserting `1` with the larger value `60` is a no-op, while inserting
the smaller value `30` leaves node `1` stored once with value `30`. -/
theorem c3_insert_dedup_witness :
    (BL.insert (BL.insert (BL.mkBlockList 1 ((100 : ℕ) : WithTop ℕ)) 1 59) 1 60 =
      BL.insert (BL.mkBlockList 1 ((100 : ℕ) : WithTop ℕ)) 1 59) ∧
    BL.countIn
      (BL.insert (BL.insert (BL.mkBlockList 1 ((100 : ℕ) : WithTop ℕ)) 1 59) 1 30).D1 1 = 1 ∧
    (BL.insert (BL.insert (BL.mkBlockList 1 ((100 : ℕ) : WithTop ℕ)) 1 59) 1 30).locator.lookup 1 =
      some (BL.LIST_D1, 30) := by
  have hA := (c3_insert_dedup
      (BL.insert (BL.mkBlockList 1 ((100 : ℕ) : WithTop ℕ)) 1 59) 1 BL.LIST_D1 59 60
      (by decide) (by decide)).1 (by decide)
  have hB := (c3_insert_dedup
      (BL.insert (BL.mkBlockList 1 ((100 : ℕ) : WithTop ℕ)) 1 59) 1 BL.LIST_D1 59 30
      (by decide) (by decide)).2 (by decide)
  exact ⟨hA, hB.2.1, hB.2.2.2⟩

namespace BL

variable {α : Type} [LinearOrderedAddCommMonoid α]

theorem idxInsert_perm (idx : List (WithTop α × ℤ)) (k : WithTop α × ℤ) :
    (idxInsert idx k).Perm (k :: idx) := by
  induction idx with
  | nil => exact List.Perm.refl _
  | cons x rest ih =>
    simp only [idxInsert]
    by_cases hc : keyLt k x = true
    · rw [if_pos hc]
    · rw [if_neg hc]
      exact (ih.cons x).trans (List.Perm.swap k x rest)

theorem idxErase_perm (k : WithTop α × ℤ) :
    ∀ idx : List (WithTop α × ℤ), k ∈ idx →
      idx.Perm (k :: idxErase idx k) := by
  intro idx
  induction idx with
  | nil => intro h; cases h
  | cons x rest ih =>
    intro hmem
    simp only [idxErase]
    by_cases hx : x = k
    · rw [if_pos hx, hx]
    · rw [if_neg hx]
      have hk : k ∈ rest := by
        rcases List.mem_cons.mp hmem with h | h
        · exact absurd h.symm hx
        · exact h
      exact ((ih hk).cons x).trans (List.Perm.swap k x _)

theorem rfb_shape (u : Nat) :
    ∀ blocks : List (Block α),
      ((∀ c ∈ blocks, (c.elements.lookup u).isSome = false) ∧
        removeFromBlocks u blocks = (blocks, none)) ∨
      (∃ pre b post,
        blocks = pre ++ b :: post ∧
        (b.elements.lookup u).isSome = true ∧
        ((elemErase u b.elements = [] ∧
           removeFromBlocks u blocks = (pre ++ post, some (b.upper_bound, b.id))) ∨
         (elemErase u b.elements ≠ [] ∧
           removeFromBlocks u blocks =
             (pre ++ { b with elements := elemErase u b.elements } :: post, none)))) := by
  intro blocks
  induction blocks with
  | nil =>
    refine Or.inl ⟨?_, rfl⟩
    intro c hc
    cases hc
  | cons b rest ih =>
    by_cases hb : (b.elements.lookup u).isSome = true
    · refine Or.inr ⟨[], b, rest, rfl, hb, ?_⟩
      cases he : elemErase u b.elements with
      | nil =>
        left
        refine ⟨rfl, ?_⟩
        rw [removeFromBlocks.eq_def]
        dsimp only
        rw [if_pos hb, he]
        dsimp only
        rw [List.nil_append]
      | cons e etail =>
        right
        refine ⟨by simp, ?_⟩
        rw [removeFromBlocks.eq_def]
        dsimp only
        rw [if_pos hb, he]
        dsimp only
        rw [List.nil_append]
    · rcases ih with ⟨hall, hres⟩ | ⟨pre, bb, post, hsplit, hbb, hcase⟩
      · refine Or.inl ⟨?_, ?_⟩
        · intro c hc
          rcases List.mem_cons.mp hc with hc | hc
          · subst hc
            cases hx : (c.elements.lookup u).isSome with
            | false => rfl
            | true => exact absurd hx hb
          · exact hall c hc
        · rw [removeFromBlocks.eq_def]
          dsimp only
          rw [if_neg hb, hres]
      · refine Or.inr ⟨b :: pre, bb, post, by rw [hsplit, List.cons_append], hbb, ?_⟩
        rcases hcase with ⟨he, hres⟩ | ⟨he, hres⟩
        · left
          refine ⟨he, ?_⟩
          rw [removeFromBlocks.eq_def]
          dsimp only
          rw [if_neg hb, hres, List.cons_append]
        · right
          refine ⟨he, ?_⟩
          rw [removeFromBlocks.eq_def]
          dsimp only
          rw [if_neg hb, hres, List.cons_append]

theorem nodup_middle_not_mem {β : Type} {l₁ l₂ : List β} {a : β}
    (h : (l₁ ++ a :: l₂).Nodup) : a ∉ l₁ ∧ a ∉ l₂ := by
  rw [List.nodup_append] at h
  obtain ⟨h1, h2, hdis⟩ := h
  constructor
  · intro ha
    exact (hdis ha) (List.mem_cons_self _ _)
  · intro ha
    rw [List.nodup_cons] at h2
    exact h2.1 ha

theorem removeExisting_inv (s : BlockList α) (u : Nat) (tag : ListType)
    (h : invC8 s) : invC8 (removeExisting s u tag) := by
  obtain ⟨hperm, hemp, ⟨hnd, hfresh⟩, hM⟩ := h
  cases tag with
  | LIST_D0 =>
    rw [removeExisting]
    cases hrec : removeFromBlocks u s.D0 with
    | mk d0r key =>
      dsimp only
      exact ⟨hperm, hemp, ⟨hnd, hfresh⟩, hM⟩
  | LIST_D1 =>
    rcases rfb_shape u s.D1 with ⟨hall, hres⟩ | ⟨pre, b, post, hsplit, hbsome, hcase⟩
    · rw [removeExisting, hres]
      dsimp only
      exact ⟨hperm, hemp, ⟨hnd, hfresh⟩, hM⟩
    · have hnoempty : ∀ c ∈ s.D1, c.elements ≠ [] := by
        intro c hc hcemp
        have hsing := (hemp c hc hcemp).1
        rw [hsplit] at hsing
        have hlen := congrArg List.length hsing
        rw [List.length_append, List.length_cons] at hlen
        have hpre : pre = [] := List.length_eq_zero.mp (by simp at hlen; omega)
        have hpost : post = [] := List.length_eq_zero.mp (by simp at hlen; omega)
        rw [hpre, hpost, List.nil_append] at hsing
        have hbc : b = c := by
          injection hsing
        rw [hbc, hcemp] at hbsome
        simp [List.lookup] at hbsome
      have hidnd : (pre.map Block.id ++ b.id :: post.map Block.id).Nodup := by
        rw [hsplit, List.map_append, List.map_cons] at hnd
        exact hnd
      have hbid := nodup_middle_not_mem hidnd
      rcases hcase with ⟨he, hres⟩ | ⟨he, hres⟩
      · rw [removeExisting, hres]
        dsimp only
        refine ⟨?_, ?_, ⟨?_, ?_⟩, hM⟩
        · rw [indexConsistent]
          dsimp only
          rw [List.map_append]
          have hkmem : (b.upper_bound, b.id) ∈ s.D1_Index := by
            apply hperm.mem_iff.mpr
            rw [hsplit]
            exact List.mem_map_of_mem _
              (List.mem_append.mpr (Or.inr (List.mem_cons_self _ _)))
          have h1 := idxErase_perm (b.upper_bound, b.id) s.D1_Index hkmem
          have h2 := h1.symm.trans hperm
          rw [hsplit, List.map_append, List.map_cons] at h2
          exact (h2.trans List.perm_middle).cons_inv
        · intro c hc hcemp
          exfalso
          apply hnoempty c ?_ hcemp
          rw [hsplit]
          rcases List.mem_append.mp hc with h | h
          · exact List.mem_append.mpr (Or.inl h)
          · exact List.mem_append.mpr (Or.inr (List.mem_cons_of_mem _ h))
        · rw [List.map_append]
          have hsub : List.Sublist (pre.map Block.id ++ post.map Block.id)
              (pre.map Block.id ++ b.id :: post.map Block.id) :=
            List.Sublist.append_left (List.Sublist.cons _ (List.Sublist.refl _)) _
          exact List.Nodup.sublist hsub hidnd
        · intro c hc
          apply hfresh
          rw [hsplit]
          rcases List.mem_append.mp hc with h | h
          · exact List.mem_append.mpr (Or.inl h)
          · exact List.mem_append.mpr (Or.inr (List.mem_cons_of_mem _ h))
      · rw [removeExisting, hres]
        dsimp only
        have hmapeq :
            (pre ++ { b with elements := elemErase u b.elements } :: post).map
              (fun c => (c.upper_bound, c.id)) =
            s.D1.map (fun c => (c.upper_bound, c.id)) := by
          rw [hsplit]
          simp
        have hmapid :
            (pre ++ { b with elements := elemErase u b.elements } :: post).map
              Block.id = s.D1.map Block.id := by
          rw [hsplit]
          simp
        refine ⟨?_, ?_, ⟨?_, ?_⟩, hM⟩
        · rw [indexConsistent]
          dsimp only
          rw [hmapeq]
          exact hperm
        · intro c hc hcemp
          rcases List.mem_append.mp hc with h | h
          · exact absurd hcemp (hnoempty c (by rw [hsplit]; exact List.mem_append.mpr (Or.inl h)))
          · rcases List.mem_cons.mp h with h | h
            · exfalso
              apply he
              rw [h] at hcemp
              exact hcemp
            · exact absurd hcemp (hnoempty c (by
                rw [hsplit]
                exact List.mem_append.mpr (Or.inr (List.mem_cons_of_mem _ h))))
        · rw [hmapid]
          exact hnd
        · intro c hc
          rcases List.mem_append.mp hc with h | h
          · exact hfresh c (by rw [hsplit]; exact List.mem_append.mpr (Or.inl h))
          · rcases List.mem_cons.mp h with h | h
            · rw [h]
              exact hfresh b (by
                rw [hsplit]
                exact List.mem_append.mpr (Or.inr (List.mem_cons_self _ _)))
            · exact hfresh c (by
                rw [hsplit]
                exact List.mem_append.mpr (Or.inr (List.mem_cons_of_mem _ h)))

theorem perm_two_middle {β : Type} (l₁ l₂ : List β) (a c : β) :
    (a :: c :: (l₁ ++ l₂)).Perm (l₁ ++ c :: a :: l₂) :=
  (List.Perm.swap c a _).trans
    ((List.perm_middle.symm.cons c).trans List.perm_middle.symm)

theorem no_empty_side {s : BlockList α} (hemp : emptyOK s)
    {pre post : List (Block α)} {b : Block α}
    (hsplit : s.D1 = pre ++ b :: post) {c : Block α}
    (hc : c ∈ pre ∨ c ∈ post) (hcemp : c.elements = []) : False := by
  have hcd1 : c ∈ s.D1 := by
    rw [hsplit]
    rcases hc with h | h
    · exact List.mem_append.mpr (Or.inl h)
    · exact List.mem_append.mpr (Or.inr (List.mem_cons_of_mem _ h))
  have hsing := (hemp c hcd1 hcemp).1
  rw [hsplit] at hsing
  have hlen := congrArg List.length hsing
  rw [List.length_append, List.length_cons, List.length_singleton] at hlen
  have hpre : pre = [] := List.length_eq_zero.mp (by omega)
  have hpost : post = [] := List.length_eq_zero.mp (by omega)
  rw [hpre, hpost] at hc
  simp at hc

theorem replaceBlock_decomp (tb : Block α) :
    ∀ blocks : List (Block α), tb ∈ blocks → (blocks.map Block.id).Nodup →
      ∃ pre post, blocks = pre ++ tb :: post ∧
        ∀ new, replaceBlock tb.id new blocks = pre ++ new ++ post := by
  intro blocks
  induction blocks with
  | nil => intro h _; cases h
  | cons b rest ih =>
    intro hmem hnd
    rw [List.map_cons, List.nodup_cons] at hnd
    by_cases hid : b.id = tb.id
    · have hbtb : b = tb := by
        rcases List.mem_cons.mp hmem with h | h
        · exact h.symm
        · exfalso
          apply hnd.1
          rw [hid]
          exact List.mem_map_of_mem _ h
      refine ⟨[], rest, by rw [hbtb, List.nil_append], ?_⟩
      intro new
      simp only [replaceBlock]
      rw [if_pos hid, List.nil_append]
    · have htb : tb ∈ rest := by
        rcases List.mem_cons.mp hmem with h | h
        · exact absurd (congrArg Block.id h.symm) hid
        · exact h
      obtain ⟨pre, post, heq, hrep⟩ := ih htb hnd.2
      refine ⟨b :: pre, post, by rw [heq, List.cons_append], ?_⟩
      intro new
      simp only [replaceBlock]
      rw [if_neg hid, hrep new, List.cons_append, List.cons_append]

theorem split_block_d1_parts (nbid : ℤ) (b : Block α)
    (h2 : 2 ≤ b.elements.length) :
    (split_block_d1 nbid b).1.id = b.id ∧
    (split_block_d1 nbid b).2.id = nbid ∧
    (split_block_d1 nbid b).2.upper_bound = b.upper_bound ∧
    (split_block_d1 nbid b).1.elements ≠ [] ∧
    (split_block_d1 nbid b).2.elements ≠ [] := by
  cases hs : sortBy (Prod.snd) b.elements with
  | nil =>
    exfalso
    have hl := length_sortBy (Prod.snd : Nat × WithTop α → WithTop α) b.elements
    rw [hs] at hl
    simp only [List.length_nil] at hl
    omega
  | cons e0 etail =>
    have hlen : (e0 :: etail).length = b.elements.length := by
      rw [← hs, length_sortBy]
    refine ⟨?_, ?_, ?_, ?_, ?_⟩
    · simp only [split_block_d1, hs]
    · simp only [split_block_d1, hs]
    · simp only [split_block_d1, hs]
    · simp only [split_block_d1, hs]
      cases hmid : (e0 :: etail).length / 2 with
      | zero =>
        exfalso
        have hlt : (e0 :: etail).length < 2 :=
          (Nat.div_eq_zero_iff (by omega)).mp hmid
        omega
      | succ mm =>
        rw [List.take_succ_cons]
        simp
    · simp only [split_block_d1, hs]
      intro hdrop
      have hd := congrArg List.length hdrop
      rw [List.length_drop, List.length_nil] at hd
      rw [List.length_cons] at hd hlen
      omega

theorem insertCore_inv (s₁ : BlockList α) (u : Nat) (d : WithTop α)
    (h : invC8 s₁) (hne : s₁.D1 ≠ []) : invC8 (insertCore s₁ u d) := by
  obtain ⟨hperm, hemp, ⟨hnd, hfresh⟩, hM⟩ := h
  have htb : routeBlock s₁ d ∈ s₁.D1 := routeBlock_mem s₁ d hne
  obtain ⟨pre, post, hsplit, hrep⟩ := replaceBlock_decomp (routeBlock s₁ d) s₁.D1 htb hnd
  have hkmem : ((routeBlock s₁ d).upper_bound, (routeBlock s₁ d).id) ∈ s₁.D1_Index := by
    apply hperm.mem_iff.mpr
    rw [hsplit]
    exact List.mem_map_of_mem _ (List.mem_append.mpr (Or.inr (List.mem_cons_self _ _)))
  rw [insertCore]
  by_cases hMlen : s₁.M < ((routeBlock s₁ d).elements ++ [(u, d)]).length
  · rw [if_pos hMlen]
    have hg2 : 2 ≤ ((routeBlock s₁ d).elements ++ [(u, d)]).length := by
      rw [List.length_append, List.length_singleton] at hMlen ⊢
      omega
    cases hsp : split_block_d1 s₁.next_block_id
        { routeBlock s₁ d with elements := (routeBlock s₁ d).elements ++ [(u, d)] } with
    | mk bl br =>
      have hparts := split_block_d1_parts s₁.next_block_id
        { routeBlock s₁ d with elements := (routeBlock s₁ d).elements ++ [(u, d)] } hg2
      rw [hsp] at hparts
      obtain ⟨hblid, hbrid, hbrub, hblne, hbrne⟩ := hparts
      dsimp only at hblid hbrub
      dsimp only
      rw [hrep [bl, br]]
      refine ⟨?_, ?_, ⟨?_, ?_⟩, hM⟩
      · rw [indexConsistent]
        dsimp only
        have h1 := idxErase_perm _ s₁.D1_Index hkmem
        have h2 := h1.symm.trans hperm
        rw [hsplit, List.map_append, List.map_cons] at h2
        have h3 := (h2.trans List.perm_middle).cons_inv
        refine (idxInsert_perm _ _).trans ?_
        refine (((idxInsert_perm _ _).trans (h3.cons _)).cons _).trans ?_
        simp only [List.map_append, List.map_cons, List.map_nil]
        rw [List.append_assoc, List.cons_append, List.cons_append, List.nil_append]
        exact perm_two_middle _ _ _ _
      · intro c hc hcemp
        refine False.elim ?_
        rcases List.mem_append.mp hc with hx | hx
        · rcases List.mem_append.mp hx with hx | hx
          · exact no_empty_side hemp hsplit (Or.inl hx) hcemp
          · rcases List.mem_cons.mp hx with hx | hx
            · rw [hx] at hcemp
              exact hblne hcemp
            · rw [List.mem_singleton] at hx
              rw [hx] at hcemp
              exact hbrne hcemp
        · exact no_empty_side hemp hsplit (Or.inr hx) hcemp
      · have hperm2 : ((pre ++ [bl, br] ++ post).map Block.id).Perm
            (s₁.next_block_id :: s₁.D1.map Block.id) := by
          rw [hsplit]
          simp only [List.map_append, List.map_cons, List.map_nil]
          rw [hblid, hbrid]
          rw [List.append_assoc, List.cons_append, List.cons_append, List.nil_append]
          exact (perm_two_middle _ _ _ _).symm.trans (List.perm_middle.symm.cons _)
        rw [hperm2.nodup_iff, List.nodup_cons]
        constructor
        · intro hmem
          rw [List.mem_map] at hmem
          obtain ⟨c, hc, hcid⟩ := hmem
          have := hfresh c hc
          omega
        · exact hnd
      · intro c hc
        dsimp only
        rcases List.mem_append.mp hc with hx | hx
        · rcases List.mem_append.mp hx with hx | hx
          · have := hfresh c (by rw [hsplit]; exact List.mem_append.mpr (Or.inl hx))
            omega
          · rcases List.mem_cons.mp hx with hx | hx
            · rw [hx, hblid]
              have := hfresh (routeBlock s₁ d) htb
              omega
            · rw [List.mem_singleton] at hx
              rw [hx, hbrid]
              omega
        · have := hfresh c (by
            rw [hsplit]
            exact List.mem_append.mpr (Or.inr (List.mem_cons_of_mem _ hx)))
          omega
  · rw [if_neg hMlen]
    dsimp only
    rw [hrep [{ routeBlock s₁ d with
      elements := (routeBlock s₁ d).elements ++ [(u, d)] }]]
    refine ⟨?_, ?_, ⟨?_, ?_⟩, hM⟩
    · rw [indexConsistent]
      dsimp only
      have hmapeq : ((pre ++
          [{ routeBlock s₁ d with
              elements := (routeBlock s₁ d).elements ++ [(u, d)] }] ++ post).map
            (fun c : Block α => (c.upper_bound, c.id))) =
          s₁.D1.map (fun c : Block α => (c.upper_bound, c.id)) := by
        rw [hsplit]
        simp
      rw [hmapeq]
      exact hperm
    · intro c hc hcemp
      refine False.elim ?_
      rcases List.mem_append.mp hc with hx | hx
      · rcases List.mem_append.mp hx with hx | hx
        · exact no_empty_side hemp hsplit (Or.inl hx) hcemp
        · rw [List.mem_singleton] at hx
          rw [hx] at hcemp
          dsimp only at hcemp
          simp at hcemp
      · exact no_empty_side hemp hsplit (Or.inr hx) hcemp
    · have hmapid : ((pre ++
          [{ routeBlock s₁ d with
              elements := (routeBlock s₁ d).elements ++ [(u, d)] }] ++ post).map
            Block.id) = s₁.D1.map Block.id := by
        rw [hsplit]
        simp
      rw [hmapid]
      exact hnd
    · intro c hc
      rcases List.mem_append.mp hc with hx | hx
      · rcases List.mem_append.mp hx with hx | hx
        · exact hfresh c (by rw [hsplit]; exact List.mem_append.mpr (Or.inl hx))
        · rw [List.mem_singleton] at hx
          rw [hx]
          exact hfresh (routeBlock s₁ d) htb
      · exact hfresh c (by
          rw [hsplit]
          exact List.mem_append.mpr (Or.inr (List.mem_cons_of_mem _ hx)))

theorem lazyD1_inv (s : BlockList α) (h : invC8 s) : invC8 (lazyD1 s) := by
  obtain ⟨hperm, hemp, ⟨hnd, hfresh⟩, hM⟩ := h
  rw [lazyD1]
  by_cases hD : s.D1.isEmpty = true
  · rw [if_pos hD]
    have hnil : s.D1 = [] := List.isEmpty_iff.mp hD
    have hidx : s.D1_Index = [] := by
      have hp := hperm
      rw [indexConsistent, hnil, List.map_nil] at hp
      exact hp.eq_nil
    refine ⟨?_, ?_, ⟨?_, ?_⟩, hM⟩
    · rw [indexConsistent]
      dsimp only
      rw [hidx]
      simp [idxInsert]
    · intro c hc hcemp
      rw [List.mem_singleton] at hc
      subst hc
      exact ⟨rfl, rfl⟩
    · simp
    · intro c hc
      rw [List.mem_singleton] at hc
      rw [hc]
      dsimp only
      omega
  · rw [if_neg hD]
    exact ⟨hperm, hemp, ⟨hnd, hfresh⟩, hM⟩

theorem insertFresh_inv (s : BlockList α) (u : Nat) (d : WithTop α)
    (h : invC8 s) : invC8 (insertFresh s u d) := by
  rw [insertFresh_eq_core]
  exact insertCore_inv (lazyD1 s) u d (lazyD1_inv s h) (lazyD1_ne s)

theorem insert_inv (s : BlockList α) (u : Nat) (d : WithTop α)
    (h : invC8 s) : invC8 (insert s u d) := by
  rw [insert]
  cases hl : s.locator.lookup u with
  | none =>
    dsimp only
    exact insertFresh_inv s u d h
  | some td =>
    obtain ⟨tag, dold⟩ := td
    dsimp only
    by_cases hle : dold ≤ d
    · rw [if_pos hle]
      exact h
    · rw [if_neg hle]
      exact insertFresh_inv _ u d (removeExisting_inv s u tag h)

theorem foldl_pair_inv {γ δ : Type} (g : (BlockList α × γ) → δ → (BlockList α × γ))
    (hg : ∀ acc p, invC8 acc.1 → invC8 (g acc p).1) :
    ∀ (els : List δ) (acc : BlockList α × γ), invC8 acc.1 →
      invC8 (els.foldl g acc).1 := by
  intro els
  induction els with
  | nil => intro acc h; exact h
  | cons p rest ih =>
    intro acc h
    rw [List.foldl_cons]
    exact ih _ (hg acc p h)

theorem foldl_state_inv (g : BlockList α → Nat → BlockList α)
    (hg : ∀ st u, invC8 st → invC8 (g st u)) :
    ∀ (l : List Nat) (st : BlockList α), invC8 st → invC8 (l.foldl g st) := by
  intro l
  induction l with
  | nil => intro st h; exact h
  | cons u rest ih =>
    intro st h
    rw [List.foldl_cons]
    exact ih _ (hg st u h)

theorem batch_prepend_inv (s : BlockList α) (els : List (Nat × WithTop α))
    (h : invC8 s) : invC8 (batch_prepend s els) := by
  rw [batch_prepend.eq_def]
  have hfold := foldl_pair_inv
    (fun (acc : BlockList α × List (Nat × WithTop α)) p =>
      match acc with
      | (st, toAdd) =>
        match st.locator.lookup p.1 with
        | some (tag, dold) =>
            if dold ≤ p.2 then (st, toAdd)
            else (removeExisting st p.1 tag, toAdd ++ [p])
        | none => (st, toAdd ++ [p]))
    (by
      intro acc p hacc
      obtain ⟨st, toAdd⟩ := acc
      dsimp only
      cases hl : st.locator.lookup p.1 with
      | none => exact hacc
      | some td =>
        obtain ⟨tag, dold⟩ := td
        dsimp only
        by_cases hle : dold ≤ p.2
        · rw [if_pos hle]
          exact hacc
        · rw [if_neg hle]
          exact removeExisting_inv st p.1 tag hacc)
    (dedupBest els []) (s, []) h
  cases hres : (dedupBest els []).foldl
    (fun (acc : BlockList α × List (Nat × WithTop α)) p =>
      match acc with
      | (st, toAdd) =>
        match st.locator.lookup p.1 with
        | some (tag, dold) =>
            if dold ≤ p.2 then (st, toAdd)
            else (removeExisting st p.1 tag, toAdd ++ [p])
        | none => (st, toAdd ++ [p])) (s, []) with
  | mk s₁ toAdd =>
    rw [hres] at hfold
    dsimp only at hfold ⊢
    obtain ⟨hperm, hemp, ⟨hnd, hfresh⟩, hM⟩ := hfold
    by_cases hta : toAdd.isEmpty = true
    · rw [if_pos hta]
      exact ⟨hperm, hemp, ⟨hnd, hfresh⟩, hM⟩
    · rw [if_neg hta]
      by_cases hlen : toAdd.length ≤ s₁.M
      · rw [if_pos hlen]
        exact ⟨hperm, hemp, ⟨hnd, hfresh⟩, hM⟩
      · rw [if_neg hlen]
        exact ⟨hperm, hemp, ⟨hnd, hfresh⟩, hM⟩

theorem pull_inv (s : BlockList α) (h : invC8 s) : invC8 (pull s).2 := by
  rw [pull.eq_def]
  cases hc : collectCands s.M s.D0 0 ++ collectCands s.M s.D1 0 with
  | nil =>
    dsimp only
    exact h
  | cons c cs =>
    dsimp only
    exact foldl_state_inv
      (fun st u =>
        match st.locator.lookup u with
        | some (tag, _) => removeExisting st u tag
        | none => st)
      (by
        intro st u hst
        dsimp only
        cases hl : st.locator.lookup u with
        | none => exact hst
        | some td =>
          obtain ⟨tag, dd⟩ := td
          exact removeExisting_inv st u tag hst)
      (selectFrontier s.M (c :: cs)) s h

theorem runOp_inv (s : BlockList α) (op : BLOp α) (h : invC8 s) :
    invC8 (runOp s op) := by
  cases op with
  | ins u d => exact insert_inv s u d h
  | bp els => exact batch_prepend_inv s els h
  | pl => exact pull_inv s h

theorem run_inv (ops : List (BLOp α)) :
    ∀ s : BlockList α, invC8 s → invC8 (run s ops) := by
  induction ops with
  | nil => intro s h; exact h
  | cons op rest ih =>
    intro s h
    have hr := ih (runOp s op) (runOp_inv s op h)
    rw [run] at hr ⊢
    rw [List.foldl_cons]
    exact hr

theorem mkBlockList_inv (m : Nat) (B : WithTop α) : invC8 (mkBlockList m B) := by
  refine ⟨?_, ?_, ⟨?_, ?_⟩, ?_⟩
  · rw [indexConsistent]
    simp [mkBlockList]
  · intro b hb hbe
    rw [mkBlockList] at hb
    dsimp only at hb
    rw [List.mem_singleton] at hb
    subst hb
    exact ⟨rfl, rfl⟩
  · simp [mkBlockList]
  · intro b hb
    rw [mkBlockList] at hb
    dsimp only at hb
    rw [List.mem_singleton] at hb
    rw [hb, mkBlockList]
    dsimp only
    omega
  · rw [mkBlockList]
    dsimp only
    split <;> omega

end BL

/-- C8 (amended): from a freshly constructed `BlockList(m, B)`, after any
sequence of public operations the `D1` list contains no empty block except
possibly the single lazily created block with `upper_bound = B_global`
(which is then `D1`'s only block), and the `D1` index always holds exactly
one entry per `D1` block, keyed by that block's `(upper_bound, id)`. -/
theorem c8_invariant_amended {α : Type} [LinearOrderedAddCommMonoid α]
    (m : Nat) (B : WithTop α) (ops : List (BL.BLOp α)) :
    BL.indexConsistent (BL.run (BL.mkBlockList m B) ops) ∧
    BL.emptyOK (BL.run (BL.mkBlockList m B) ops) := by
  have h := BL.run_inv ops (BL.mkBlockList m B) (BL.mkBlockList_inv m B)
  exact ⟨h.1, h.2.1⟩


namespace BMSSP

variable {α : Type} [LinearOrderedAddCommMonoid α]

theorem cbrt_fold_spec (m : Nat) :
    ∀ n : Nat,
      ((List.range n).foldl (fun acc c => if c * c * c ≤ m then c else acc) 0) *
          ((List.range n).foldl (fun acc c => if c * c * c ≤ m then c else acc) 0) *
          ((List.range n).foldl (fun acc c => if c * c * c ≤ m then c else acc) 0) ≤
        m ∧
      ∀ c, c < n → c * c * c ≤ m →
        c ≤ (List.range n).foldl (fun acc c => if c * c * c ≤ m then c else acc) 0 := by
  intro n
  induction n with
  | zero =>
    constructor
    · simp
    · intro c hc
      omega
  | succ k ih =>
    rw [List.range_succ, List.foldl_append, List.foldl_cons, List.foldl_nil]
    by_cases hk : k * k * k ≤ m
    · rw [if_pos hk]
      exact ⟨hk, fun c hc _ => by omega⟩
    · rw [if_neg hk]
      refine ⟨ih.1, ?_⟩
      intro c hc hcm
      rcases Nat.lt_succ_iff_lt_or_eq.mp hc with h | h
      · exact ih.2 c h hcm
      · subst h
        exact absurd hcm hk

theorem natCbrt_spec (m : Nat) :
    natCbrt m * natCbrt m * natCbrt m ≤ m ∧
    m < (natCbrt m + 1) * (natCbrt m + 1) * (natCbrt m + 1) := by
  have hdef : natCbrt m =
      (List.range (m + 1)).foldl (fun acc c => if c * c * c ≤ m then c else acc) 0 :=
    rfl
  have h := cbrt_fold_spec m (m + 1)
  rw [← hdef] at h
  refine ⟨h.1, ?_⟩
  by_contra hc
  push_neg at hc
  have h1 : natCbrt m + 1 ≤
      (natCbrt m + 1) * (natCbrt m + 1) * (natCbrt m + 1) := by
    calc natCbrt m + 1 = (natCbrt m + 1) * 1 * 1 := by ring
      _ ≤ (natCbrt m + 1) * (natCbrt m + 1) * (natCbrt m + 1) :=
          Nat.mul_le_mul (Nat.mul_le_mul (le_refl _) (by omega)) (by omega)
  have hle : natCbrt m + 1 ≤ m := le_trans h1 hc
  have h2 := h.2 (natCbrt m + 1) (by omega) hc
  omega

theorem floor_rpow_third (m : Nat) :
    ⌊(m : ℝ) ^ ((1 : ℝ) / 3)⌋₊ = natCbrt m := by
  obtain ⟨h1, h2⟩ := natCbrt_spec m
  have hm0 : (0 : ℝ) ≤ (m : ℝ) := by positivity
  rw [Nat.floor_eq_iff (by positivity)]
  constructor
  · have hc : ((natCbrt m : ℝ)) ^ (3 : ℕ) ≤ (m : ℝ) := by
      rw [show ((natCbrt m : ℝ)) ^ (3 : ℕ) =
        (natCbrt m : ℝ) * (natCbrt m : ℝ) * (natCbrt m : ℝ) by ring]
      exact_mod_cast h1
    calc ((natCbrt m : ℕ) : ℝ)
        = (((natCbrt m : ℝ)) ^ (3 : ℕ)) ^ ((1 : ℝ) / 3) := by
          rw [← Real.rpow_natCast ((natCbrt m : ℝ)) 3,
            ← Real.rpow_mul (by positivity)]
          norm_num
      _ ≤ (m : ℝ) ^ ((1 : ℝ) / 3) :=
          Real.rpow_le_rpow (by positivity) hc (by norm_num)
  · have hc : (m : ℝ) < ((natCbrt m : ℝ) + 1) ^ (3 : ℕ) := by
      rw [show ((natCbrt m : ℝ) + 1) ^ (3 : ℕ) =
        ((natCbrt m : ℝ) + 1) * ((natCbrt m : ℝ) + 1) * ((natCbrt m : ℝ) + 1) by
          ring]
      exact_mod_cast h2
    calc (m : ℝ) ^ ((1 : ℝ) / 3)
        < (((natCbrt m : ℝ) + 1) ^ (3 : ℕ)) ^ ((1 : ℝ) / 3) :=
          Real.rpow_lt_rpow hm0 hc (by norm_num)
      _ = (natCbrt m : ℝ) + 1 := by
          rw [← Real.rpow_natCast ((natCbrt m : ℝ) + 1) 3,
            ← Real.rpow_mul (by positivity)]
          norm_num

theorem floor_rpow_two_thirds (j : Nat) :
    ⌊(j : ℝ) ^ ((2 : ℝ) / 3)⌋₊ = natCbrt (j * j) := by
  have hcast : (j : ℝ) ^ ((2 : ℝ) / 3) = ((j * j : ℕ) : ℝ) ^ ((1 : ℝ) / 3) := by
    push_cast
    rw [show ((j : ℝ) * (j : ℝ)) = (j : ℝ) ^ (2 : ℕ) by ring,
      ← Real.rpow_natCast ((j : ℝ)) 2, ← Real.rpow_mul (by positivity)]
    norm_num
  rw [hcast, floor_rpow_third]

theorem ceil_div_nat (j t : Nat) (ht : 1 ≤ t) :
    ⌈(j : ℝ) / (t : ℝ)⌉₊ = (j + t - 1) / t := by
  have ht0 : (0 : ℝ) < (t : ℝ) := by
    have : 0 < t := by omega
    exact_mod_cast this
  rcases Nat.eq_zero_or_pos j with hj | hj
  · subst hj
    rw [Nat.cast_zero, zero_div, Nat.ceil_zero]
    symm
    apply Nat.div_eq_of_lt
    omega
  · have hq1 : 1 ≤ (j + t - 1) / t := by
      rw [Nat.le_div_iff_mul_le (by omega)]
      omega
    rw [Nat.ceil_eq_iff (by omega)]
    constructor
    · rw [lt_div_iff₀ ht0]
      have h1 : (j + t - 1) / t * t ≤ j + t - 1 := Nat.div_mul_le_self _ _
      have hstep : ((j + t - 1) / t - 1) * t < j := by
        rw [Nat.sub_mul, one_mul]
        omega
      calc (((j + t - 1) / t - 1 : ℕ) : ℝ) * (t : ℝ)
          = ((((j + t - 1) / t - 1) * t : ℕ) : ℝ) := by push_cast; ring
        _ < (j : ℝ) := by exact_mod_cast hstep
    · rw [div_le_iff₀ ht0]
      have hdm := Nat.div_add_mod (j + t - 1) t
      have hmod : (j + t - 1) % t < t := Nat.mod_lt _ (by omega)
      rw [Nat.mul_comm t ((j + t - 1) / t)] at hdm
      have hstep : j ≤ (j + t - 1) / t * t := by omega
      calc (j : ℝ) ≤ (((j + t - 1) / t * t : ℕ) : ℝ) := by exact_mod_cast hstep
        _ = (((j + t - 1) / t : ℕ) : ℝ) * (t : ℝ) := by push_cast; ring

theorem mcGet_replicate_top (n v : Nat) :
    mcGet (List.replicate n (⊤ : WithTop α)) v = ⊤ := by
  induction n generalizing v with
  | zero => simp [mcGet]
  | succ k ih =>
    cases v with
    | zero => simp [mcGet, List.replicate_succ]
    | succ w =>
      rw [List.replicate_succ]
      simp only [mcGet, List.getD_cons_succ]
      exact ih w

end BMSSP

/-- C6 (amended): for `n = 2^j` with `j ≤ 7` (where the `double`
computations are exact), `solve_sssp` derives `k = max(2, ⌊logn^(1/3)⌋)`,
`t = max(1, ⌊logn^(2/3)⌋)` and `l = ⌈logn / t⌉` from `logn = log2 n = j`
with no substitution at `n ≤ 2`, and initializes `min_costs` to `+∞`
everywhere except `0` at the source. -/
theorem c6_params_amended {α : Type} [LinearOrderedAddCommMonoid α]
    (j : Nat) (hj : j ≤ 7) :
    (BMSSP.solveParamsPow2 j).1 = max 2 ⌊(j : ℝ) ^ ((1 : ℝ) / 3)⌋₊ ∧
    (BMSSP.solveParamsPow2 j).2.1 = max 1 ⌊(j : ℝ) ^ ((2 : ℝ) / 3)⌋₊ ∧
    (BMSSP.solveParamsPow2 j).2.2 =
      ⌈(j : ℝ) / (((BMSSP.solveParamsPow2 j).2.1 : ℕ) : ℝ)⌉₊ ∧
    ∀ n src v : Nat, v < n →
      BMSSP.mcGet (BMSSP.initMC α n src) v = if v = src then 0 else ⊤ := by
  have hk : (BMSSP.solveParamsPow2 j).1 = max 2 (BMSSP.natCbrt j) := rfl
  have ht : (BMSSP.solveParamsPow2 j).2.1 = max 1 (BMSSP.natCbrt (j * j)) := rfl
  have hl : (BMSSP.solveParamsPow2 j).2.2 =
      (j + max 1 (BMSSP.natCbrt (j * j)) - 1) / max 1 (BMSSP.natCbrt (j * j)) :=
    rfl
  refine ⟨?_, ?_, ?_, ?_⟩
  · rw [hk, BMSSP.floor_rpow_third]
  · rw [ht, BMSSP.floor_rpow_two_thirds]
  · rw [hl, ht, BMSSP.ceil_div_nat j _ (le_max_left 1 _)]
  · intro n src v hv
    have hdef : BMSSP.initMC α n src =
        BMSSP.mcSet (List.replicate n (⊤ : WithTop α)) src 0 := rfl
    rw [hdef, BMSSP.mcGet_set, List.length_replicate]
    by_cases hvs : v = src
    · subst hvs
      rw [if_pos ⟨rfl, hv⟩, if_pos rfl]
    · rw [if_neg (fun hh => hvs hh.1), if_neg hvs]
      exact BMSSP.mcGet_replicate_top n v

/-- Witness for `c6_params_amended` at `j = 4` (`n = 16`): the derived
parameters are `k = max 2 ⌊4^(1/3)⌋`, `t = max 1 ⌊4^(2/3)⌋`,
`l = ⌈4 / t⌉`, and `min_costs` starts as `0` at the source `3` and `+∞`
elsewhere. -/
theorem c6_params_amended_witness :
    ((BMSSP.solveParamsPow2 4).1 = max 2 ⌊((4 : ℕ) : ℝ) ^ ((1 : ℝ) / 3)⌋₊ ∧
      (BMSSP.solveParamsPow2 4).2.1 = max 1 ⌊((4 : ℕ) : ℝ) ^ ((2 : ℝ) / 3)⌋₊ ∧
      (BMSSP.solveParamsPow2 4).2.2 =
        ⌈((4 : ℕ) : ℝ) / (((BMSSP.solveParamsPow2 4).2.1 : ℕ) : ℝ)⌉₊) ∧
    BMSSP.mcGet (BMSSP.initMC ℕ 16 3) 3 = 0 ∧
    BMSSP.mcGet (BMSSP.initMC ℕ 16 3) 5 = ⊤ := by
  have h := c6_params_amended (α := ℕ) 4 (by decide)
  refine ⟨⟨h.1, h.2.1, h.2.2.1⟩, ?_, ?_⟩
  · have h3 := h.2.2.2 16 3 3 (by decide)
    simpa using h3
  · have h5 := h.2.2.2 16 3 5 (by decide)
    simpa using h5
